import Mathlib

/- Shallow embedding of the `bologna` repository (src/hashish.rs and
   src/main.rs): a fixed-capacity open-addressing hash table, an aggregate
   record type over f32, and the chunk/aggregate/merge/render pipeline.

   Modelling conventions:
   * `usize` arithmetic is `Nat` with an explicit `% 2 ^ 64` where wrap-around
     can occur (the probe-index addition); `u32` additions are taken `% 2 ^ 32`
     (release-profile wrapping semantics).
   * `u8` subtraction (`byte - b'0'`) wraps `% 2 ^ 256`-free: `% 256`.
   * `f32` is embedded as `F32`: finite values are exact rationals together
     with `inf`, `neginf` and `nan`; arithmetic rounds the exact rational
     result to the binary32 grid with round-to-nearest, ties-to-even, which
     is the IEEE-754 semantics of Rust's `f32` `+`, `*`, `/` for finite
     results.  Negative zero is not distinguished from zero (nothing in the
     verified code observes the sign of zero).
   * Rust loops become fuel-indexed recursive functions returning `Option`:
     `none` means the loop has not terminated within the given fuel (or that
     the Rust code panicked, e.g. a slice index out of bounds); each unit of
     fuel is one loop iteration.
   * Rust's `&self` methods (`get`) return their result without a table; the
     operation-level runner `runOp` threads the unchanged table explicitly.
   * The hash function (`rustc_hash::FxHasher`, an external crate) is an
     explicit parameter `hash : A → Nat` everywhere, exactly as the table is
     generic over the `Hashed` capability in the source. -/

namespace Bologna

/-- Executable addition on ℚ.  (Batteries' `Rat.add` is `@[irreducible]`,
which blocks kernel evaluation; this definition reduces and is proved equal
to `+` below.) -/
def qadd (a b : ℚ) : ℚ := mkRat (a.num * b.den + b.num * a.den) (a.den * b.den)

/-- Executable negation on ℚ. -/
def qneg (a : ℚ) : ℚ := mkRat (-a.num) a.den

/-- Executable subtraction on ℚ. -/
def qsub (a b : ℚ) : ℚ := qadd a (qneg b)

/-- Executable multiplication on ℚ. -/
def qmul (a b : ℚ) : ℚ := mkRat (a.num * b.num) (a.den * b.den)

/-- Executable inverse on ℚ (inverse of 0 is 0). -/
def qinv (a : ℚ) : ℚ :=
  if a.num < 0 then mkRat (-(a.den : ℤ)) a.num.natAbs
  else mkRat (a.den : ℤ) a.num.natAbs

/-- Executable division on ℚ. -/
def qdiv (a b : ℚ) : ℚ := qmul a (qinv b)

/-- Fuel-bounded floor of log2 on naturals; exact for `n < 2 ^ 512`, far
beyond every magnitude a binary32 computation can produce. -/
def natLog2F : Nat → Nat → Nat
  | 0, _ => 0
  | fuel + 1, n => if n ≤ 1 then 0 else natLog2F fuel (n / 2) + 1

def natLog2 (n : Nat) : Nat := natLog2F 512 n

/-- Floor of a rational, as an integer. -/
def qfloor (q : ℚ) : ℤ := Int.fdiv q.num q.den

/-- Round a rational to the nearest integer, ties to even. -/
def roundHalfEven (q : ℚ) : ℤ :=
  let n := qfloor q
  let fr := qsub q (n : ℚ)
  if fr < mkRat 1 2 then n
  else if mkRat 1 2 < fr then n + 1
  else if n % 2 = 0 then n else n + 1

/-- `2 ^ e` as a rational, for an integer exponent. -/
def qpow2 : ℤ → ℚ
  | Int.ofNat n => ((2 ^ n : ℕ) : ℚ)
  | Int.negSucc n => mkRat 1 (2 ^ (n + 1))

/-- Floor of log2 of a positive rational. -/
def floorLog2Q (q : ℚ) : ℤ :=
  let e0 : ℤ := (natLog2 q.num.natAbs : ℤ) - (natLog2 q.den : ℤ)
  if qpow2 e0 ≤ q then e0 else e0 - 1

/-- IEEE-754 binary32 values, shallowly embedded: finite values are exact
rationals (every finite f32 is one); `nan` carries no payload and negative
zero is identified with zero. -/
inductive F32 where
  | finite (val : ℚ)
  | inf
  | neginf
  | nan
deriving DecidableEq

/-- Round a positive rational to the binary32 grid (round to nearest, ties
to even), overflowing to `inf`; subnormals are covered by clamping the
scale exponent at `-149`. -/
def roundPosF32 (q : ℚ) : F32 :=
  let e := floorLog2Q q
  let scale := max (e - 23) (-149)
  let m := roundHalfEven (qdiv q (qpow2 scale))
  let v := qmul (m : ℚ) (qpow2 scale)
  if qpow2 128 ≤ v then F32.inf else F32.finite v

/-- Round any rational to the nearest binary32 value (ties to even).  This
is the rounding every finite `F32` arithmetic result goes through. -/
def roundF32 (q : ℚ) : F32 :=
  if q = 0 then F32.finite 0
  else if 0 < q then roundPosF32 q
  else
    match roundPosF32 (qneg q) with
    | F32.inf => F32.neginf
    | F32.finite v => F32.finite (qneg v)
    | x => x

def F32.isNaN : F32 → Bool
  | F32.nan => true
  | _ => false

/-- IEEE `<=` restricted to the model (false whenever either side is NaN). -/
def F32.le : F32 → F32 → Bool
  | F32.nan, _ => false
  | _, F32.nan => false
  | F32.neginf, _ => true
  | _, F32.neginf => false
  | _, F32.inf => true
  | F32.inf, _ => false
  | F32.finite a, F32.finite b => decide (a ≤ b)

/-- IEEE `<` (Rust's `<` on f32): false whenever either side is NaN. -/
def F32.lt : F32 → F32 → Bool
  | F32.nan, _ => false
  | _, F32.nan => false
  | F32.neginf, F32.neginf => false
  | F32.neginf, _ => true
  | _, F32.neginf => false
  | F32.inf, _ => false
  | _, F32.inf => true
  | F32.finite a, F32.finite b => decide (a < b)

/-- Rust `f32::min`: if one argument is NaN the other is returned. -/
def F32.min (x y : F32) : F32 :=
  if x.isNaN then y else if y.isNaN then x else if F32.le x y then x else y

/-- Rust `f32::max`: if one argument is NaN the other is returned. -/
def F32.max (x y : F32) : F32 :=
  if x.isNaN then y else if y.isNaN then x else if F32.le y x then x else y

/-- IEEE binary32 addition: the exact rational sum, rounded. -/
def F32.add : F32 → F32 → F32
  | F32.nan, _ => F32.nan
  | _, F32.nan => F32.nan
  | F32.inf, F32.neginf => F32.nan
  | F32.neginf, F32.inf => F32.nan
  | F32.inf, _ => F32.inf
  | _, F32.inf => F32.inf
  | F32.neginf, _ => F32.neginf
  | _, F32.neginf => F32.neginf
  | F32.finite a, F32.finite b => roundF32 (qadd a b)

/-- IEEE binary32 multiplication (the sign of zero is not modelled). -/
def F32.mul : F32 → F32 → F32
  | F32.nan, _ => F32.nan
  | _, F32.nan => F32.nan
  | F32.inf, F32.inf => F32.inf
  | F32.inf, F32.neginf => F32.neginf
  | F32.neginf, F32.inf => F32.neginf
  | F32.neginf, F32.neginf => F32.inf
  | F32.inf, F32.finite b => if b = 0 then F32.nan else if 0 < b then F32.inf else F32.neginf
  | F32.finite a, F32.inf => if a = 0 then F32.nan else if 0 < a then F32.inf else F32.neginf
  | F32.neginf, F32.finite b => if b = 0 then F32.nan else if 0 < b then F32.neginf else F32.inf
  | F32.finite a, F32.neginf => if a = 0 then F32.nan else if 0 < a then F32.neginf else F32.inf
  | F32.finite a, F32.finite b => roundF32 (qmul a b)

/-- IEEE binary32 division (the sign of zero is not modelled). -/
def F32.div : F32 → F32 → F32
  | F32.nan, _ => F32.nan
  | _, F32.nan => F32.nan
  | F32.inf, F32.inf => F32.nan
  | F32.inf, F32.neginf => F32.nan
  | F32.neginf, F32.inf => F32.nan
  | F32.neginf, F32.neginf => F32.nan
  | F32.inf, F32.finite b => if b < 0 then F32.neginf else F32.inf
  | F32.neginf, F32.finite b => if b < 0 then F32.inf else F32.neginf
  | F32.finite _, F32.inf => F32.finite 0
  | F32.finite _, F32.neginf => F32.finite 0
  | F32.finite a, F32.finite b =>
    if b = 0 then (if a = 0 then F32.nan else if 0 < a then F32.inf else F32.neginf)
    else roundF32 (qdiv a b)

/-- Exact f32 negation. -/
def F32.neg : F32 → F32
  | F32.finite a => F32.finite (qneg a)
  | F32.inf => F32.neginf
  | F32.neginf => F32.inf
  | F32.nan => F32.nan

/-- The rational value of `f32::MAX`: `(2 ^ 24 - 1) * 2 ^ 104`. -/
def maxF32Q : ℚ := (((2 ^ 24 - 1) * 2 ^ 104 : ℕ) : ℚ)

/-- The rational value of `f32::MIN = -f32::MAX`. -/
def minF32Q : ℚ := qneg maxF32Q

/-- Whether an `F32` is a genuine binary32 value (finite values must lie on
the binary32 grid, i.e. be fixed by rounding); the model's `F32.finite`
otherwise admits rationals no f32 can hold. -/
def reprF32 : F32 → Bool
  | F32.finite q => decide (roundF32 q = F32.finite q)
  | _ => true

/-- Reduction of a `u32` result (Rust release-profile wrapping semantics). -/
def u32Mod (n : Nat) : Nat := n % 2 ^ 32

/-- `struct Stat` of src/main.rs: the Aggregate Record.  `count` is a `u32`. -/
structure Stat where
  min : F32
  sum : F32
  count : Nat
  max : F32
deriving DecidableEq

/-- `Stat::DEFAULT_INSTANCE`: `{min: f32::MAX, sum: 0.0, count: 0, max: f32::MIN}`. -/
def Stat.DEFAULT_INSTANCE : Stat :=
  { min := F32.finite maxF32Q, sum := F32.finite 0, count := 0, max := F32.finite minF32Q }

/-- `Stat::add`: record one observation.  The `min`/`max` updates use the
source's `if self.min < x { self.min } else { x }` shape (Rust `<`, which is
false on NaN), not `f32::min`. -/
def Stat.add (s : Stat) (x : F32) : Stat :=
  { min := if F32.lt s.min x then s.min else x
    sum := F32.add s.sum x
    count := u32Mod (s.count + 1)
    max := if F32.lt x s.max then s.max else x }

/-- `Stat::merge_with`: field-wise combination using `f32::min` / `f32::max`. -/
def Stat.mergeWith (s rhs : Stat) : Stat :=
  { min := F32.min s.min rhs.min
    sum := F32.add s.sum rhs.sum
    count := u32Mod (s.count + rhs.count)
    max := F32.max s.max rhs.max }

/-- `Stat::average`: `sum / (count as f32)` (the `u32 → f32` cast rounds). -/
def Stat.average (s : Stat) : F32 := F32.div s.sum (roundF32 (s.count : ℚ))

/-- `struct Entry<A, B>` of src/hashish.rs: an optional key plus a value;
`key = none` is the sole empty-slot marker. -/
structure Entry (A B : Type) where
  key : Option A
  value : B
deriving DecidableEq

/-- `struct Table<N, A, B>` of src/hashish.rs.  The const generic `N` is the
length of `store`; all operations use `store.length` where the source uses
`N`. -/
structure Table (A B : Type) where
  store : List (Entry A B)
  collisions : Nat
deriving DecidableEq

/-- `Table::new`: `N` empty slots (value field = `B::default()`), zero
collisions. -/
def Table.new (N : Nat) (b : B) : Table A B :=
  { store := List.replicate N { key := none, value := b }, collisions := 0 }

/-- Bit reversal of the low `w` bits of `n` (Rust `usize::reverse_bits` with
`w = 64`). -/
def reverseBits : Nat → Nat → Nat
  | 0, _ => 0
  | w + 1, n => n % 2 * 2 ^ w + reverseBits w (n / 2)

def rev64 (n : Nat) : Nat := reverseBits 64 n

/-- One probe advance: `index = (index + hash.reverse_bits()) % N`, with the
`usize` addition wrapping at `2 ^ 64`. -/
def probeStep (N h idx : Nat) : Nat := (idx + rev64 h) % 2 ^ 64 % N

/-- The index reached after `j` probe advances starting from `idx`
(structural recursion on the advance count). -/
def stepIter (N h : Nat) : Nat → Nat → Nat
  | idx, 0 => idx
  | idx, j + 1 => stepIter N h (probeStep N h idx) j

/-- The key stored at slot `i` (`none` when the slot is empty or `i` is out
of range). -/
def slotKey (t : Table A B) (i : Nat) : Option A :=
  match t.store[i]? with
  | some e => e.key
  | none => none

/-- The probe loop of `Table::insert`: a slot holding a different key causes
an advance; an empty slot or the key's own slot receives the write. -/
def insertAux [DecidableEq A] (hash : A → Nat) :
    Nat → Table A B → A → B → Nat → Option (Table A B)
  | 0, _, _, _, _ => none
  | fuel + 1, t, k, v, idx =>
    match t.store[idx]? with
    | none => none
    | some e =>
      match e.key with
      | some kP =>
        if kP = k then some { t with store := t.store.set idx { key := some k, value := v } }
        else insertAux hash fuel t k v (probeStep t.store.length (hash k) idx)
      | none => some { t with store := t.store.set idx { key := some k, value := v } }

/-- `Table::insert`, started at the home slot `hash(key) % N`. -/
def Table.insert [DecidableEq A] (hash : A → Nat) (fuel : Nat) (t : Table A B) (k : A) (v : B) :
    Option (Table A B) :=
  insertAux hash fuel t k v (hash k % t.store.length)

/-- The probe loop of `Table::get`: a matching occupied slot yields the
value, an occupied slot with a different key yields `none` (miss), and an
EMPTY slot causes an advance — the source's read path probes past empty
slots and stops at the first occupied slot. -/
def getAux [DecidableEq A] (hash : A → Nat) :
    Nat → Table A B → A → Nat → Option (Option B)
  | 0, _, _, _ => none
  | fuel + 1, t, k, idx =>
    match t.store[idx]? with
    | none => none
    | some e =>
      match e.key with
      | some kP => if kP = k then some (some e.value) else some none
      | none => getAux hash fuel t k (probeStep t.store.length (hash k) idx)

/-- `Table::get`, started at the home slot. -/
def Table.get [DecidableEq A] (hash : A → Nat) (fuel : Nat) (t : Table A B) (k : A) :
    Option (Option B) :=
  getAux hash fuel t k (hash k % t.store.length)

/-- The probe loop of `Table::get_mut`: matching slot yields its index (the
mutable borrow), a differing occupied slot causes an advance, an empty slot
is a miss. -/
def getMutAux [DecidableEq A] (hash : A → Nat) :
    Nat → Table A B → A → Nat → Option (Option Nat)
  | 0, _, _, _ => none
  | fuel + 1, t, k, idx =>
    match t.store[idx]? with
    | none => none
    | some e =>
      match e.key with
      | some kP =>
        if kP = k then some (some idx)
        else getMutAux hash fuel t k (probeStep t.store.length (hash k) idx)
      | none => some none

/-- `Table::get_mut`, started at the home slot. -/
def Table.getMut [DecidableEq A] (hash : A → Nat) (fuel : Nat) (t : Table A B) (k : A) :
    Option (Option Nat) :=
  getMutAux hash fuel t k (hash k % t.store.length)

/-- The probe loop of `Table::emplace`: a differing occupied slot increments
`collisions` and advances; an empty slot receives the key (the value field
keeps the slot's residual default); a matching slot is returned as is.  The
result is the updated table plus the index of the returned `&mut` value. -/
def empAux [DecidableEq A] (hash : A → Nat) :
    Nat → Table A B → A → Nat → Option (Table A B × Nat)
  | 0, _, _, _ => none
  | fuel + 1, t, k, idx =>
    match t.store[idx]? with
    | none => none
    | some e =>
      match e.key with
      | some kP =>
        if kP = k then some (t, idx)
        else
          empAux hash fuel { t with collisions := t.collisions + 1 } k
            (probeStep t.store.length (hash k) idx)
      | none => some ({ t with store := t.store.set idx { key := some k, value := e.value } }, idx)

/-- `Table::emplace`, started at the home slot.  The probe-index sequence is
determined by its predecessor alone, so it cycles within `N` steps: fuel
`N + 1` decides termination (a loop not finished by then never finishes). -/
def Table.emplace [DecidableEq A] (hash : A → Nat) (t : Table A B) (k : A) :
    Option (Table A B × Nat) :=
  empAux hash (t.store.length + 1) t k (hash k % t.store.length)

/-- Writing through the `&mut B` that `emplace`/`get_mut` return: update the
value (never the key) at the given slot. -/
def Table.modifyValue (t : Table A B) (idx : Nat) (f : B → B) : Table A B :=
  match t.store[idx]? with
  | some e => { t with store := t.store.set idx { key := e.key, value := f e.value } }
  | none => t

/-- `TableIterator`: the occupied slots in storage order.  The source's
`next` scans indices upward collecting `(key, value)` of each occupied slot;
this recursion over the store list produces exactly that sequence. -/
def itemsList : List (Entry A B) → List (A × B)
  | [] => []
  | e :: rest =>
    match e.key with
    | some k => (k, e.value) :: itemsList rest
    | none => itemsList rest

def Table.items (t : Table A B) : List (A × B) := itemsList t.store

/-- Count of probe-advances (steps past an occupied, non-matching slot) that
an `emplace` probe starting at `idx` performs.  This restates the spec's
notion of a probe-advance independently of the collision counter, for
comparison with what `emplace` adds to `collisions`. -/
def probeAdvances [DecidableEq A] (hash : A → Nat) :
    Nat → List (Entry A B) → A → Nat → Option Nat
  | 0, _, _, _ => none
  | fuel + 1, store, k, idx =>
    match store[idx]? with
    | none => none
    | some e =>
      match e.key with
      | some kP =>
        if kP = k then some 0
        else (probeAdvances hash fuel store k (probeStep store.length (hash k) idx)).map (· + 1)
      | none => some 0

/-- A sequence of `emplace` calls (each result's `&mut` is unused). -/
def emplaceSeq [DecidableEq A] (hash : A → Nat) (keys : List A) (t : Table A B) :
    Option (Table A B) :=
  keys.foldlM (fun t k => (Table.emplace hash t k).map Prod.fst) t

/-- The same sequence of `emplace` calls, also accumulating the total number
of probe-advances as counted by `probeAdvances`. -/
def emplaceSeqAdv [DecidableEq A] (hash : A → Nat) (keys : List A) (t : Table A B) :
    Option (Table A B × Nat) :=
  keys.foldlM
    (fun acc k =>
      match probeAdvances hash (acc.1.store.length + 1) acc.1.store k
          (hash k % acc.1.store.length), Table.emplace hash acc.1 k with
      | some a, some tp => some (tp.1, acc.2 + a)
      | _, _ => none)
    (t, 0)

/-- A sequence of `insert` calls. -/
def insertSeq [DecidableEq A] (hash : A → Nat) (fuel : Nat) (ops : List (A × B)) (t : Table A B) :
    Option (Table A B) :=
  ops.foldlM (fun t kv => Table.insert hash fuel t kv.1 kv.2) t

/-- The value the last insert of key `k` in `ops` carried, if any. -/
def lastVal [DecidableEq A] (ops : List (A × B)) (k : A) : Option B :=
  (ops.reverse.find? (fun kv => decide (kv.1 = k))).map Prod.snd

/-- A key is resident when some slot holds it. -/
def Resident (t : Table A B) (k : A) : Prop :=
  ∃ i : Nat, ∃ e : Entry A B, t.store[i]? = some e ∧ e.key = some k

/-- The spec's lookup invariant for one key: the probe sequence from the
home slot reaches `k`'s slot before reaching any empty slot. -/
def ReachesBeforeEmpty (hash : A → Nat) (t : Table A B) (k : A) : Prop :=
  ∃ j, slotKey t (stepIter t.store.length (hash k) (hash k % t.store.length) j) = some k ∧
    ∀ i < j, (slotKey t (stepIter t.store.length (hash k) (hash k % t.store.length) i)).isSome = true

/-- The spec's table invariant: every resident key is reached before any
empty slot on its own probe sequence. -/
def Inv (hash : A → Nat) (t : Table A B) : Prop :=
  ∀ k, Resident t k → ReachesBeforeEmpty hash t k

/-- The four public operations, for frame-condition statements.  `lookup`
(`get`) takes `&self`, and `lookupMut` (`get_mut`) writes no slot; both hand
the table back unchanged, as the source's types guarantee. -/
inductive TableOp (A B : Type) where
  | ins (k : A) (v : B)
  | emp (k : A)
  | lookup (k : A)
  | lookupMut (k : A)

inductive OpOut (B : Type) where
  | unit
  | found (v : Option B)
  | ref (i : Option Nat)
deriving DecidableEq

def runOp [DecidableEq A] (hash : A → Nat) (fuel : Nat) (t : Table A B) :
    TableOp A B → Option (Table A B × OpOut B)
  | TableOp.ins k v =>
    (insertAux hash fuel t k v (hash k % t.store.length)).map (fun tp => (tp, OpOut.unit))
  | TableOp.emp k =>
    (empAux hash fuel t k (hash k % t.store.length)).map (fun tp => (tp.1, OpOut.ref (some tp.2)))
  | TableOp.lookup k =>
    (getAux hash fuel t k (hash k % t.store.length)).map (fun r => (t, OpOut.found r))
  | TableOp.lookupMut k =>
    (getMutAux hash fuel t k (hash k % t.store.length)).map (fun r => (t, OpOut.ref r))

/-- Input bytes (`&[u8]`); keys obtained by `str::from_utf8_unchecked` are
byte slices compared bytewise, which for valid UTF-8 is `&str` equality. -/
abbrev Bytes := List Nat

/-- The capacity of `StatTable` in src/main.rs. -/
def tableN : Nat := 14813

abbrev StatTable := Table Bytes Stat

/-- The `while city_pos < cursor.len() && cursor[city_pos] != b';'` scan,
fuel-structural (`findSemi` packs adequate fuel, so exhaustion never
happens). -/
def findSemiAux (c : Bytes) : Nat → Nat → Nat
  | 0, i => i
  | fuel + 1, i =>
    if i < c.length then (if c.getD i 0 = 59 then i else findSemiAux c fuel (i + 1)) else i

def findSemi (c : Bytes) (i : Nat) : Nat := findSemiAux c (c.length + 1) i

/-- Rust `byte - b'0'` with u8 wrapping semantics. -/
def sub48 (b : Nat) : Nat := (b + 208) % 256

/-- `parse_temperature` of src/main.rs.  Out-of-bounds indexing or slicing
(a Rust panic on malformed input) is `none`.  Each f32 operation of the
source is one `F32` operation here. -/
def parseTemperature (image : Bytes) : Option (F32 × Bytes) := do
  let b0 ← image[0]?
  let neg := b0 = 45
  let fi ←
    if neg then do
      let b1 ← image[1]?
      pure (F32.finite ((sub48 b1 : ℕ) : ℚ), 2)
    else
      pure (F32.finite ((sub48 b0 : ℕ) : ℚ), 1)
  let float0 := fi.1
  let index := fi.2
  let bi ← image[index]?
  if bi = 46 then do
    let b1 ← image[index + 1]?
    let float := F32.add float0 (F32.div (F32.finite ((sub48 b1 : ℕ) : ℚ)) (F32.finite 10))
    if index + 3 ≤ image.length then
      pure ((if neg then F32.neg float else float), image.drop (index + 3))
    else none
  else do
    let b2 ← image[index + 2]?
    let f1 := F32.add (F32.mul (F32.finite 10) float0) (F32.finite ((sub48 bi : ℕ) : ℚ))
    let float := F32.add f1 (F32.div (F32.finite ((sub48 b2 : ℕ) : ℚ)) (F32.finite 10))
    if index + 4 ≤ image.length then
      pure ((if neg then F32.neg float else float), image.drop (index + 4))
    else none

/-- The loop of `aggregate_chunk`: scan for `';'` starting at offset 3 of
the record, emplace the key, add the parsed temperature through the
returned `&mut`, continue on the remains. -/
def aggChunkAux (hash : Bytes → Nat) : Nat → StatTable → Bytes → Option StatTable
  | 0, _, _ => none
  | fuel + 1, t, cursor =>
    let cityPos := findSemi cursor 3
    if cityPos < cursor.length then
      match parseTemperature (cursor.drop (cityPos + 1)) with
      | none => none
      | some tr =>
        match Table.emplace hash t (cursor.take cityPos) with
        | none => none
        | some ti => aggChunkAux hash fuel (ti.1.modifyValue ti.2 (fun s => s.add tr.1)) tr.2
    else some t

/-- `aggregate_chunk`: run the loop on a fresh `StatTable` (each iteration
consumes at least one byte, so `length + 1` fuel is never exhausted). -/
def aggregateChunk (hash : Bytes → Nat) (chunk : Bytes) : Option StatTable :=
  aggChunkAux hash (chunk.length + 1) (Table.new tableN Stat.DEFAULT_INSTANCE) chunk

/-- One step of `StatChunk::merge_with`: `self.data.emplace(&city).merge_with(&stat)`. -/
def mergeInto (hash : Bytes → Nat) (t : StatTable) (city : Bytes) (stat : Stat) :
    Option StatTable :=
  (Table.emplace hash t city).map (fun ti => ti.1.modifyValue ti.2 (fun s => s.mergeWith stat))

/-- `StatChunk::merge_with`: fold the argument table's items into `p`. -/
def chunkMergeWith (hash : Bytes → Nat) (p q : StatTable) : Option StatTable :=
  q.items.foldlM (fun t kv => mergeInto hash t kv.1 kv.2) p

/-- The `while offset < extent_size && extent[offset] != b'\n'` scan of
`chunkify` (fuel-structural; `scanNl` packs adequate fuel). -/
def scanNlAux (extent : Bytes) : Nat → Nat → Nat
  | 0, off => off
  | fuel + 1, off =>
    if off < extent.length then
      (if extent.getD off 0 = 10 then off else scanNlAux extent fuel (off + 1))
    else off

def scanNl (extent : Bytes) (off : Nat) : Nat := scanNlAux extent (extent.length + 1) off

/-- The loop of `chunkify`, producing index ranges `(base, offset + 1)` of
the pushed slices; `&extent[base..(offset+1)]` with `offset + 1` out of
bounds is a Rust panic, hence `none`. -/
def chunkifyAux (extent : Bytes) (chunkSize : Nat) : Nat → Nat → Nat → Option (List (Nat × Nat))
  | 0, _, _ => some []
  | c + 1, base, offset =>
    let o := scanNl extent offset
    if o + 1 ≤ extent.length then
      (chunkifyAux extent chunkSize c (o + 1)
          (o + Nat.min chunkSize (extent.length - (o + 1)))).map
        (fun rs => (base, o + 1) :: rs)
    else none

/-- `chunkify` as slice index ranges (`count = 0` divides by zero in Rust:
`none`). -/
def chunkifyRanges (extent : Bytes) (count : Nat) : Option (List (Nat × Nat)) :=
  if count = 0 then none
  else chunkifyAux extent (extent.length / count) count 0 (extent.length / count)

/-- `chunkify`: the byte slices themselves. -/
def chunkify (extent : Bytes) (count : Nat) : Option (List Bytes) :=
  (chunkifyRanges extent count).map (List.map (fun r => (extent.drop r.1).take (r.2 - r.1)))

/-- `&str` comparison is bytewise lexicographic. -/
def byteLexLe : Bytes → Bytes → Bool
  | [], _ => true
  | _ :: _, [] => false
  | a :: as_, b :: bs => if a < b then true else if b < a then false else byteLexLe as_ bs

def insertSorted (x : Bytes × Stat) : List (Bytes × Stat) → List (Bytes × Stat)
  | [] => [x]
  | y :: ys => if byteLexLe x.1 y.1 then x :: y :: ys else y :: insertSorted x ys

/-- `entries.sort_by_cached_key(|(key, _)| *key)`: a stable sort by key. -/
def sortByKey (l : List (Bytes × Stat)) : List (Bytes × Stat) := l.foldr insertSorted []

def strOfBytes (bs : Bytes) : String := String.mk (bs.map Char.ofNat)

/-- Rust `Display` for the table's f32 values, modelled for the values this
development evaluates: integral values print without a decimal point (as
Rust does), values with one decimal digit print it; other finite values
(which no verified statement evaluates) fall back to `num/den`. -/
def displayF32 : F32 → String
  | F32.nan => "NaN"
  | F32.inf => "inf"
  | F32.neginf => "-inf"
  | F32.finite q =>
    if q.den = 1 then toString q.num
    else
      if (qmul q 10).den = 1 then
        let n := (qmul q 10).num
        (if n < 0 then "-" else "") ++ toString (n.natAbs / 10) ++ "." ++ toString (n.natAbs % 10)
      else toString q.num ++ "/" ++ toString q.den

/-- Rust `{:.1}` formatting of an f32: the exact value, rounded to one
decimal digit (ties to even), printed with exactly one fractional digit. -/
def fmtPrec1 : F32 → String
  | F32.nan => "NaN"
  | F32.inf => "inf"
  | F32.neginf => "-inf"
  | F32.finite q =>
    let n := roundHalfEven (qmul q 10)
    (if n < 0 then "-" else "") ++ toString (n.natAbs / 10) ++ "." ++ toString (n.natAbs % 10)

/-- `impl Display for Stat`: `min/{average:.1}/max`. -/
def displayStat (s : Stat) : String :=
  displayF32 s.min ++ "/" ++ fmtPrec1 s.average ++ "/" ++ displayF32 s.max

/-- `impl Display for StatChunk`: entries sorted by key, rendered
`\x7bkey=stat,...\x7d`. -/
def renderTable (t : StatTable) : String :=
  "\x7b" ++
    String.join ((sortByKey t.items).map (fun kv => strOfBytes kv.1 ++ "=" ++ displayStat kv.2 ++ ",")) ++
    "\x7d"

/-- One worker (spawn then join) per chunk, in order; a failing worker
fails the whole run. -/
def aggAll (hash : Bytes → Nat) : List Bytes → Option (List StatTable)
  | [] => some []
  | c :: cs => do
    let t ← aggregateChunk hash c
    let ts ← aggAll hash cs
    pure (t :: ts)

/-- `main`'s pipeline up to the merged accumulator: chunkify, aggregate each
chunk, fold the rest into the first (`Iterator::reduce`); an empty chunk
list makes `reduce` return `None` and `unwrap` panic. -/
def mergedTable (hash : Bytes → Nat) (input : Bytes) (workerCount : Nat) : Option StatTable := do
  let chunks ← chunkify input workerCount
  let tables ← aggAll hash chunks
  match tables with
  | [] => none
  | t :: ts => ts.foldlM (chunkMergeWith hash) t

/-- The whole pipeline: merged accumulator, rendered. -/
def runPipeline (hash : Bytes → Nat) (input : Bytes) (workerCount : Nat) : Option String :=
  (mergedTable hash input workerCount).map renderTable

/-- The spec's end-to-end input `"X;1.0\nY;-2.5\nX;3.0\n"` as bytes. -/
def e2eInput : Bytes :=
  [88, 59, 49, 46, 48, 10, 89, 59, 45, 50, 46, 53, 10, 88, 59, 51, 46, 48, 10]

/-- The single key the pipeline actually aggregates on the end-to-end
input: the scan for `';'` starts at offset 3, so the 7 bytes `"X;1.0\nY"`
become the key. -/
def e2eKey : Bytes := [88, 59, 49, 46, 48, 10, 89]

/-- The single Aggregate Record the end-to-end input actually produces:
one observation of `-2.5`. -/
def e2eStat : Stat :=
  { min := F32.finite (mkRat (-5) 2), sum := F32.finite (mkRat (-5) 2), count := 1,
    max := F32.finite (mkRat (-5) 2) }

/-- The merged accumulator the end-to-end input actually produces (for any
hash function: a single key occupies its home slot). -/
def e2eTable (hash : Bytes → Nat) : StatTable :=
  ⟨(List.replicate tableN (Entry.mk none Stat.DEFAULT_INSTANCE)).set (hash e2eKey % tableN)
    (Entry.mk (some e2eKey) e2eStat), 0⟩

/-- A hash function for concrete counterexamples: key 1 and key 2 share the
home slot `0` in a table of capacity 4, and key 2's probe stride
`reverse_bits(2 ^ 62) % 4 = 2` is nonzero. -/
def cexHash : Nat → Nat := fun k => if k = 1 then 0 else 2 ^ 62

/-- The constant-zero hash function (every `A → Nat` is a legitimate
`Hashed` capability). -/
def hashZero : Bytes → Nat := fun _ => 0


/- ------------------------------------------------------------------ -/
/- Theorems.  First: the executable rational layer agrees with ℚ's
   field operations. -/

theorem qadd_eq (a b : ℚ) : qadd a b = a + b := by
  rw [qadd, Rat.mkRat_eq_div]
  conv_rhs => rw [← Rat.num_div_den a, ← Rat.num_div_den b]
  push_cast
  field_simp

theorem qneg_eq (a : ℚ) : qneg a = -a := by
  rw [qneg, Rat.mkRat_eq_div]
  conv_rhs => rw [← Rat.num_div_den a]
  push_cast
  rw [neg_div]

theorem qsub_eq (a b : ℚ) : qsub a b = a - b := by
  rw [qsub, qadd_eq, qneg_eq, sub_eq_add_neg]

theorem qmul_eq (a b : ℚ) : qmul a b = a * b := by
  rw [qmul, Rat.mkRat_eq_div]
  conv_rhs => rw [← Rat.num_div_den a, ← Rat.num_div_den b]
  push_cast
  field_simp

theorem qinv_eq (a : ℚ) : qinv a = a⁻¹ := by
  rw [qinv]
  rcases lt_trichotomy a.num 0 with h | h | h
  · rw [if_pos h, Rat.mkRat_eq_div]
    conv_rhs => rw [← Rat.num_div_den a]
    rw [inv_div]
    have h3 : (a.num.natAbs : ℤ) = -a.num := by omega
    have h2 : ((a.num.natAbs : ℕ) : ℚ) = -(a.num : ℚ) := by
      rw [show ((a.num.natAbs : ℕ) : ℚ) = (((a.num.natAbs : ℕ) : ℤ) : ℚ) from (Int.cast_natCast _).symm, h3]
      push_cast
      ring
    rw [h2]
    push_cast
    rw [div_neg, ← neg_div, neg_neg]
  · rw [if_neg (by omega), Rat.mkRat_eq_div]
    have h0 : a = 0 := by
      rw [← Rat.num_div_den a, h]
      simp
    rw [h0]
    simp [h]
  · rw [if_neg (by omega), Rat.mkRat_eq_div]
    conv_rhs => rw [← Rat.num_div_den a]
    rw [inv_div]
    have h3 : (a.num.natAbs : ℤ) = a.num := by omega
    have h2 : ((a.num.natAbs : ℕ) : ℚ) = (a.num : ℚ) := by
      rw [show ((a.num.natAbs : ℕ) : ℚ) = (((a.num.natAbs : ℕ) : ℤ) : ℚ) from (Int.cast_natCast _).symm, h3]
    rw [h2]
    push_cast
    rfl

theorem qdiv_eq (a b : ℚ) : qdiv a b = a / b := by
  rw [qdiv, qmul_eq, qinv_eq, div_eq_mul_inv]

theorem qadd_zero (a : ℚ) : qadd a 0 = a := by rw [qadd_eq, add_zero]

theorem qadd_comm (a b : ℚ) : qadd a b = qadd b a := by rw [qadd_eq, qadd_eq, add_comm]

/- F32 min/max algebra. -/

theorem F32.min_finite (a b : ℚ) :
    F32.min (F32.finite a) (F32.finite b) = F32.finite (Min.min a b) := by
  simp only [F32.min, F32.isNaN, F32.le, Bool.false_eq_true, if_false, decide_eq_true_eq]
  rw [min_def]
  split_ifs <;> rfl

theorem F32.max_finite (a b : ℚ) :
    F32.max (F32.finite a) (F32.finite b) = F32.finite (Max.max a b) := by
  simp only [F32.max, F32.isNaN, F32.le, Bool.false_eq_true, if_false, decide_eq_true_eq]
  rw [max_def]
  rcases le_or_lt b a with h | h
  · rw [if_pos h]
    rcases le_or_lt a b with h2 | h2
    · rw [if_pos h2, le_antisymm h2 h]
    · rw [if_neg (not_le.mpr h2)]
  · rw [if_neg (not_le.mpr h), if_pos (le_of_lt h)]

theorem F32.min_fi (a : ℚ) : F32.min (F32.finite a) F32.inf = F32.finite a := rfl

theorem F32.min_if (a : ℚ) : F32.min F32.inf (F32.finite a) = F32.finite a := rfl

theorem F32.min_fm (a : ℚ) : F32.min (F32.finite a) F32.neginf = F32.neginf := rfl

theorem F32.min_mf (a : ℚ) : F32.min F32.neginf (F32.finite a) = F32.neginf := rfl

theorem F32.min_fn (a : ℚ) : F32.min (F32.finite a) F32.nan = F32.finite a := rfl

theorem F32.min_nf (a : ℚ) : F32.min F32.nan (F32.finite a) = F32.finite a := rfl

theorem F32.min_ii : F32.min F32.inf F32.inf = F32.inf := rfl

theorem F32.min_im : F32.min F32.inf F32.neginf = F32.neginf := rfl

theorem F32.min_mi : F32.min F32.neginf F32.inf = F32.neginf := rfl

theorem F32.min_mm : F32.min F32.neginf F32.neginf = F32.neginf := rfl

theorem F32.min_in : F32.min F32.inf F32.nan = F32.inf := rfl

theorem F32.min_ni : F32.min F32.nan F32.inf = F32.inf := rfl

theorem F32.min_mn : F32.min F32.neginf F32.nan = F32.neginf := rfl

theorem F32.min_nm : F32.min F32.nan F32.neginf = F32.neginf := rfl

theorem F32.min_nn : F32.min F32.nan F32.nan = F32.nan := rfl

theorem F32.max_fi (a : ℚ) : F32.max (F32.finite a) F32.inf = F32.inf := rfl

theorem F32.max_if (a : ℚ) : F32.max F32.inf (F32.finite a) = F32.inf := rfl

theorem F32.max_fm (a : ℚ) : F32.max (F32.finite a) F32.neginf = F32.finite a := rfl

theorem F32.max_mf (a : ℚ) : F32.max F32.neginf (F32.finite a) = F32.finite a := rfl

theorem F32.max_fn (a : ℚ) : F32.max (F32.finite a) F32.nan = F32.finite a := rfl

theorem F32.max_nf (a : ℚ) : F32.max F32.nan (F32.finite a) = F32.finite a := rfl

theorem F32.max_ii : F32.max F32.inf F32.inf = F32.inf := rfl

theorem F32.max_im : F32.max F32.inf F32.neginf = F32.inf := rfl

theorem F32.max_mi : F32.max F32.neginf F32.inf = F32.inf := rfl

theorem F32.max_mm : F32.max F32.neginf F32.neginf = F32.neginf := rfl

theorem F32.max_in : F32.max F32.inf F32.nan = F32.inf := rfl

theorem F32.max_ni : F32.max F32.nan F32.inf = F32.inf := rfl

theorem F32.max_mn : F32.max F32.neginf F32.nan = F32.neginf := rfl

theorem F32.max_nm : F32.max F32.nan F32.neginf = F32.neginf := rfl

theorem F32.max_nn : F32.max F32.nan F32.nan = F32.nan := rfl

theorem F32.minComm (x y : F32) : F32.min x y = F32.min y x := by
  cases x <;> cases y <;>
    simp [F32.min_finite, F32.min_fi, F32.min_if, F32.min_fm, F32.min_mf, F32.min_fn,
      F32.min_nf, F32.min_ii, F32.min_im, F32.min_mi, F32.min_mm, F32.min_in, F32.min_ni,
      F32.min_mn, F32.min_nm, F32.min_nn, min_comm]

theorem F32.maxComm (x y : F32) : F32.max x y = F32.max y x := by
  cases x <;> cases y <;>
    simp [F32.max_finite, F32.max_fi, F32.max_if, F32.max_fm, F32.max_mf, F32.max_fn,
      F32.max_nf, F32.max_ii, F32.max_im, F32.max_mi, F32.max_mm, F32.max_in, F32.max_ni,
      F32.max_mn, F32.max_nm, F32.max_nn, max_comm]

theorem F32.minAssoc (x y z : F32) :
    F32.min (F32.min x y) z = F32.min x (F32.min y z) := by
  cases x <;> cases y <;> cases z <;>
    simp [F32.min_finite, F32.min_fi, F32.min_if, F32.min_fm, F32.min_mf, F32.min_fn,
      F32.min_nf, F32.min_ii, F32.min_im, F32.min_mi, F32.min_mm, F32.min_in, F32.min_ni,
      F32.min_mn, F32.min_nm, F32.min_nn, min_assoc]

theorem F32.maxAssoc (x y z : F32) :
    F32.max (F32.max x y) z = F32.max x (F32.max y z) := by
  cases x <;> cases y <;> cases z <;>
    simp [F32.max_finite, F32.max_fi, F32.max_if, F32.max_fm, F32.max_fn,
      F32.max_nf, F32.max_mf, F32.max_ii, F32.max_im, F32.max_mi, F32.max_mm, F32.max_in,
      F32.max_ni, F32.max_mn, F32.max_nm, F32.max_nn, max_assoc]

theorem F32.addComm (x y : F32) : F32.add x y = F32.add y x := by
  cases x <;> cases y <;> simp [F32.add] <;> rw [qadd_comm]

theorem F32.min_id_of_le (x y : F32) (h : F32.le x y = true) : F32.min x y = x := by
  cases x <;> cases y <;> simp_all [F32.min, F32.isNaN, F32.le]

theorem F32.max_id_of_ge (x y : F32) (h : F32.le y x = true) : F32.max x y = x := by
  cases x <;> cases y <;> simp_all [F32.max, F32.isNaN, F32.le]

/-- C4: the Aggregate Record created for a key first seen (the value type's
default) is claimed to be `{min: +inf, sum: 0, count: 0, max: -inf}` and to
be a merge identity.  The source's default is `{min: f32::MAX, sum: 0.0,
count: 0, max: f32::MIN}` with FINITE extremes, so the claim fails (see the
counterexample); amended: the default is that finite record, and merging it
into any record `r` leaves `r` unchanged provided `r.min ≤ f32::MAX`,
`r.max ≥ f32::MIN`, `r.sum` is a genuine binary32 value and `r.count` is a
`u32` value. -/
theorem c4_default_identity :
    Stat.DEFAULT_INSTANCE =
      { min := F32.finite maxF32Q, sum := F32.finite 0, count := 0, max := F32.finite minF32Q } ∧
    ∀ r : Stat, reprF32 r.sum = true → F32.le r.min (F32.finite maxF32Q) = true →
      F32.le (F32.finite minF32Q) r.max = true → r.count < 2 ^ 32 →
        Stat.mergeWith r Stat.DEFAULT_INSTANCE = r := by
  refine ⟨rfl, ?_⟩
  rintro ⟨mn, sm, ct, mx⟩ hsum hmin hmax hct
  simp only [Stat.mergeWith, Stat.DEFAULT_INSTANCE, Stat.mk.injEq]
  refine ⟨F32.min_id_of_le _ _ hmin, ?_, ?_, F32.max_id_of_ge _ _ hmax⟩
  · cases sm with
    | finite q =>
      simp only [reprF32] at hsum
      simp only [F32.add, qadd_zero]
      exact of_decide_eq_true hsum
    | inf => rfl
    | neginf => rfl
    | nan => rfl
  · simp only [u32Mod, Nat.add_zero]
    exact Nat.mod_eq_of_lt hct

theorem c4_default_identity_witness :
    reprF32 (Stat.DEFAULT_INSTANCE).sum = true ∧
    F32.le (Stat.DEFAULT_INSTANCE).min (F32.finite maxF32Q) = true ∧
    F32.le (F32.finite minF32Q) (Stat.DEFAULT_INSTANCE).max = true ∧
    (Stat.DEFAULT_INSTANCE).count < 2 ^ 32 ∧
    Stat.mergeWith Stat.DEFAULT_INSTANCE Stat.DEFAULT_INSTANCE = Stat.DEFAULT_INSTANCE :=
  ⟨by decide, by decide, by decide, by decide,
    c4_default_identity.2 Stat.DEFAULT_INSTANCE (by decide) (by decide) (by decide) (by decide)⟩

theorem c4_counterexample :
    Stat.DEFAULT_INSTANCE ≠
      { min := F32.inf, sum := F32.finite 0, count := 0, max := F32.neginf } ∧
    Stat.mergeWith { min := F32.inf, sum := F32.finite 0, count := 0, max := F32.finite 0 }
        Stat.DEFAULT_INSTANCE ≠
      { min := F32.inf, sum := F32.finite 0, count := 0, max := F32.finite 0 } := by
  constructor <;> decide

/-- C5: merge is claimed associative and commutative on every field.  It is
commutative on every field, but associativity fails on the f32 `sum` field
because binary32 addition rounds (see the counterexample); amended: merge is
commutative on every field and associative on the `min`, `count` and `max`
fields. -/
theorem c5_merge_comm_partial_assoc (a b c : Stat) :
    Stat.mergeWith a b = Stat.mergeWith b a ∧
    (Stat.mergeWith (Stat.mergeWith a b) c).min = (Stat.mergeWith a (Stat.mergeWith b c)).min ∧
    (Stat.mergeWith (Stat.mergeWith a b) c).count =
      (Stat.mergeWith a (Stat.mergeWith b c)).count ∧
    (Stat.mergeWith (Stat.mergeWith a b) c).max = (Stat.mergeWith a (Stat.mergeWith b c)).max := by
  refine ⟨?_, ?_, ?_, ?_⟩
  · simp only [Stat.mergeWith, Stat.mk.injEq]
    exact ⟨F32.minComm _ _, F32.addComm _ _, by simp [u32Mod, Nat.add_comm], F32.maxComm _ _⟩
  · simp only [Stat.mergeWith]
    exact F32.minAssoc _ _ _
  · simp only [Stat.mergeWith, u32Mod, Nat.mod_add_mod, Nat.add_mod_mod, Nat.add_assoc]
  · simp only [Stat.mergeWith]
    exact F32.maxAssoc _ _ _

theorem c5_sum_assoc_counterexample :
    Stat.mergeWith
        (Stat.mergeWith { min := F32.finite 0, sum := F32.finite 1, count := 0, max := F32.finite 0 }
          { min := F32.finite 0, sum := F32.finite (mkRat 1 16777216), count := 0, max := F32.finite 0 })
        { min := F32.finite 0, sum := F32.finite (mkRat 1 16777216), count := 0, max := F32.finite 0 } ≠
      Stat.mergeWith { min := F32.finite 0, sum := F32.finite 1, count := 0, max := F32.finite 0 }
        (Stat.mergeWith
          { min := F32.finite 0, sum := F32.finite (mkRat 1 16777216), count := 0, max := F32.finite 0 }
          { min := F32.finite 0, sum := F32.finite (mkRat 1 16777216), count := 0, max := F32.finite 0 }) := by
  decide

/- The read path of `Table::get`. -/

theorem stepIter_succ (N h idx j : Nat) :
    stepIter N h idx (j + 1) = stepIter N h (probeStep N h idx) j := by
  simp only [stepIter]

theorem getAux_none_char [DecidableEq A] (hash : A → Nat) :
    ∀ (fuel : Nat) (t : Table A B) (k : A) (idx : Nat), getAux hash fuel t k idx = some none →
      ∃ j, j < fuel ∧
        (∃ kP, slotKey t (stepIter t.store.length (hash k) idx j) = some kP ∧ kP ≠ k) ∧
        ∀ i < j, slotKey t (stepIter t.store.length (hash k) idx i) = none := by
  intro fuel
  induction fuel with
  | zero => intro t k idx h; simp [getAux] at h
  | succ f ih =>
    intro t k idx h
    rw [getAux] at h
    split at h
    · exact absurd h (by simp)
    next e hstore =>
      split at h
      next kP hkey =>
        split at h
        next hk => exact absurd h (by simp)
        next hk =>
          refine ⟨0, Nat.succ_pos f, ⟨kP, ?_, hk⟩, fun i hi => absurd hi (Nat.not_lt_zero i)⟩
          simp [stepIter, slotKey, hstore, hkey]
      next hkey =>
        obtain ⟨j, hj, hocc, hpre⟩ := ih t k (probeStep t.store.length (hash k) idx) h
        refine ⟨j + 1, Nat.succ_lt_succ hj, ?_, ?_⟩
        · rw [stepIter_succ]
          exact hocc
        · intro i hi
          cases i with
          | zero => simp [stepIter, slotKey, hstore, hkey]
          | succ iP =>
            rw [stepIter_succ]
            exact hpre iP (Nat.lt_of_succ_lt_succ hi)

/-- C2: the claim says `get(key)` returns `None` as soon as the probe
sequence reaches an EMPTY slot.  In the source the read path is inverted:
an empty slot causes the probe to advance, and `None` is returned at the
first OCCUPIED slot holding a different key (see the counterexample, where
lookup of an absent key on an all-empty table never terminates).  Amended:
whenever `get` terminates with `None`, the probe sequence reached an
occupied slot holding a different key, and every earlier probed slot was
empty. -/
theorem c2_get_miss_stops_at_occupied [DecidableEq A] (hash : A → Nat) (fuel : Nat)
    (t : Table A B) (k : A) (h : Table.get hash fuel t k = some none) :
    ∃ j, j < fuel ∧
      (∃ kP, slotKey t (stepIter t.store.length (hash k) (hash k % t.store.length) j) = some kP ∧
        kP ≠ k) ∧
      ∀ i < j, slotKey t (stepIter t.store.length (hash k) (hash k % t.store.length) i) = none :=
  getAux_none_char hash fuel t k (hash k % t.store.length) h

theorem c2_witness :
    ∃ j, j < 1 ∧
      (∃ kP, slotKey (⟨[⟨some 7, 42⟩, ⟨none, 0⟩], 0⟩ : Table Nat Nat)
          (stepIter 2 0 (0 % 2) j) = some kP ∧ kP ≠ 3) ∧
      ∀ i < j, slotKey (⟨[⟨some 7, 42⟩, ⟨none, 0⟩], 0⟩ : Table Nat Nat)
          (stepIter 2 0 (0 % 2) i) = none :=
  c2_get_miss_stops_at_occupied (fun _ => 0) 1 ⟨[⟨some 7, 42⟩, ⟨none, 0⟩], 0⟩ 3 (by decide)

theorem c2_counterexample :
    slotKey (Table.new 4 (0 : Nat) : Table Nat Nat) (cexHash 9 % 4) = none ∧
    Table.items (Table.new 4 (0 : Nat) : Table Nat Nat) = [] ∧
    Table.get cexHash 1 (Table.new 4 (0 : Nat) : Table Nat Nat) 9 = none ∧
    Table.get cexHash 100 (Table.new 4 (0 : Nat) : Table Nat Nat) 9 = none :=
  ⟨by decide, by decide, by decide, by decide⟩

/- Chunk boundary analysis. -/

theorem scanNlAux_ge (extent : Bytes) :
    ∀ (fuel off : Nat), off ≤ scanNlAux extent fuel off := by
  intro fuel
  induction fuel with
  | zero => intro off; simp [scanNlAux]
  | succ f ih =>
    intro off
    rw [scanNlAux]
    split_ifs with h1 h2
    · exact Nat.le_refl off
    · exact Nat.le_trans (Nat.le_succ off) (ih (off + 1))
    · exact Nat.le_refl off

theorem scanNlAux_nl (extent : Bytes) :
    ∀ (fuel off : Nat), extent.length ≤ fuel + off →
      scanNlAux extent fuel off < extent.length →
      extent.getD (scanNlAux extent fuel off) 0 = 10 := by
  intro fuel
  induction fuel with
  | zero => intro off hfuel hlt; rw [scanNlAux] at hlt; omega
  | succ f ih =>
    intro off hfuel hlt
    rw [scanNlAux] at hlt ⊢
    by_cases h1 : off < extent.length
    · rw [if_pos h1] at hlt ⊢
      by_cases h2 : extent.getD off 0 = 10
      · rw [if_pos h2]
        exact h2
      · rw [if_neg h2] at hlt ⊢
        exact ih (off + 1) (by omega) hlt
    · rw [if_neg h1] at hlt
      omega

theorem scanNl_ge (extent : Bytes) (off : Nat) : off ≤ scanNl extent off :=
  scanNlAux_ge extent (extent.length + 1) off

theorem scanNl_nl (extent : Bytes) (off : Nat) (h : scanNl extent off < extent.length) :
    extent.getD (scanNl extent off) 0 = 10 :=
  scanNlAux_nl extent (extent.length + 1) off (by omega) h

theorem chunkifyAux_boundaries (extent : Bytes) (chunkSize : Nat) :
    ∀ (c base offset : Nat) (rs : List (Nat × Nat)),
      chunkifyAux extent chunkSize c base offset = some rs →
      (base = 0 ∨ extent.getD (base - 1) 0 = 10) →
      base ≤ offset + 1 →
      ∀ r ∈ rs, (r.1 = 0 ∨ extent.getD (r.1 - 1) 0 = 10) ∧
        (0 < r.2 ∧ extent.getD (r.2 - 1) 0 = 10 ∧ r.2 ≤ extent.length) ∧ r.1 ≤ r.2 := by
  intro c
  induction c with
  | zero =>
    intro base offset rs h hbase hle r hr
    rw [chunkifyAux] at h
    cases h
    cases hr
  | succ c ih =>
    intro base offset rs h hbase hle r hr
    rw [chunkifyAux] at h
    by_cases hcond : scanNl extent offset + 1 ≤ extent.length
    · rw [if_pos hcond] at h
      cases hrec : chunkifyAux extent chunkSize c (scanNl extent offset + 1)
          (scanNl extent offset +
            Nat.min chunkSize (extent.length - (scanNl extent offset + 1))) with
      | none => rw [hrec] at h; simp at h
      | some rsP =>
        rw [hrec] at h
        rw [Option.map_some'] at h
        cases h
        rcases List.mem_cons.mp hr with hr | hr
        · subst hr
          refine ⟨hbase, ⟨Nat.succ_pos _, ?_, hcond⟩, ?_⟩
          · simpa using scanNl_nl extent offset (by omega)
          · exact Nat.le_trans hle (by have := scanNl_ge extent offset; omega)
        · refine ih (scanNl extent offset + 1) _ rsP hrec (Or.inr ?_) (by omega) r hr
          simpa using scanNl_nl extent offset (by omega)
    · rw [if_neg hcond] at h
      cases h

/-- C8: every slice produced by `chunkify` starts at offset 0 of the extent
or immediately after a newline byte, and ends immediately after a newline
byte within bounds (hence at or after a line terminator): no slice boundary
falls inside a record.  Slices are the ranges `(start, end-exclusive)` of
`chunkifyRanges`; when a cut would run past the extent (input not ending in
a newline) the source panics and no slices are produced (`none`). -/
theorem c8_chunk_boundaries (extent : Bytes) (count : Nat) (rs : List (Nat × Nat))
    (h : chunkifyRanges extent count = some rs) :
    ∀ r ∈ rs, (r.1 = 0 ∨ extent.getD (r.1 - 1) 0 = 10) ∧
      (0 < r.2 ∧ extent.getD (r.2 - 1) 0 = 10 ∧ r.2 ≤ extent.length) ∧ r.1 ≤ r.2 := by
  rw [chunkifyRanges] at h
  by_cases hc : count = 0
  · rw [if_pos hc] at h; cases h
  · rw [if_neg hc] at h
    exact chunkifyAux_boundaries extent (extent.length / count) count 0
      (extent.length / count) rs h (Or.inl rfl) (Nat.zero_le _)

theorem c8_witness :
    (((13, 19) : Nat × Nat).1 = 0 ∨ e2eInput.getD (((13, 19) : Nat × Nat).1 - 1) 0 = 10) ∧
    (0 < ((13, 19) : Nat × Nat).2 ∧ e2eInput.getD (((13, 19) : Nat × Nat).2 - 1) 0 = 10 ∧
      ((13, 19) : Nat × Nat).2 ≤ e2eInput.length) ∧
    ((13, 19) : Nat × Nat).1 ≤ ((13, 19) : Nat × Nat).2 :=
  c8_chunk_boundaries e2eInput 2 [(0, 13), (13, 19)] (by decide) (13, 19) (by decide)

/- Probe-loop characterizations of `emplace` and `insert`, used by several
claims below. -/

theorem empAux_spec [DecidableEq A] (hash : A → Nat) :
    ∀ (fuel : Nat) (t : Table A B) (k : A) (idx : Nat) (t2 : Table A B) (p : Nat),
      empAux hash fuel t k idx = some (t2, p) →
      ∃ m, m < fuel ∧ p = stepIter t.store.length (hash k) idx m ∧
        (∀ i < m, ∃ kI, slotKey t (stepIter t.store.length (hash k) idx i) = some kI ∧ kI ≠ k) ∧
        t2.collisions = t.collisions + m ∧
        probeAdvances hash fuel t.store k idx = some m ∧
        p < t.store.length ∧
        ((∃ e0 : Entry A B, t.store[p]? = some e0 ∧ e0.key = some k ∧ t2.store = t.store) ∨
          (∃ e0 : Entry A B, t.store[p]? = some e0 ∧ e0.key = none ∧
            t2.store = t.store.set p (Entry.mk (some k) e0.value))) := by
  intro fuel
  induction fuel with
  | zero => intro t k idx t2 p h; simp [empAux] at h
  | succ f ih =>
    intro t k idx t2 p h
    rw [empAux] at h
    split at h
    · exact absurd h (by simp)
    next e hstore =>
      split at h
      next kP hkey =>
        split at h
        next hk =>
          have hh : t = t2 ∧ idx = p := by simpa using h
          obtain ⟨rfl, rfl⟩ := hh
          subst hk
          refine ⟨0, Nat.succ_pos f, rfl, fun i hi => absurd hi (Nat.not_lt_zero i),
            (Nat.add_zero _).symm, ?_, ?_, Or.inl ⟨e, hstore, hkey, rfl⟩⟩
          · rw [probeAdvances]
            split
            next hnone => rw [hstore] at hnone; cases hnone
            next eP hsome =>
              rw [hstore] at hsome
              cases hsome
              rw [hkey]
              simp
          · obtain ⟨hlt, -⟩ := List.getElem?_eq_some_iff.mp hstore
            exact hlt
        next hk =>
          obtain ⟨m, hm, hp, hpre, hcoll, hadv, hplt, hdisj⟩ :=
            ih { t with collisions := t.collisions + 1 } k
              (probeStep t.store.length (hash k) idx) t2 p h
          refine ⟨m + 1, Nat.succ_lt_succ hm, ?_, ?_, ?_, ?_, ?_, ?_⟩
          · rw [stepIter_succ]
            exact hp
          · intro i hi
            cases i with
            | zero =>
              refine ⟨kP, ?_, hk⟩
              simp [slotKey, stepIter, hstore, hkey]
            | succ iP =>
              rw [stepIter_succ]
              exact hpre iP (Nat.lt_of_succ_lt_succ hi)
          · have hc : t2.collisions = t.collisions + 1 + m := hcoll
            omega
          · rw [probeAdvances]
            split
            next hnone => rw [hstore] at hnone; cases hnone
            next eP hsome =>
              rw [hstore] at hsome
              cases hsome
              rw [hkey]
              have hadvP : probeAdvances hash f t.store k (probeStep t.store.length (hash k) idx) =
                  some m := hadv
              simp [hk, hadvP]
          · exact hplt
          · exact hdisj
      next hkey =>
        have hh : ({ t with store := t.store.set idx (Entry.mk (some k) e.value) } : Table A B) = t2 ∧
            idx = p := by simpa using h
        obtain ⟨ht2, rfl⟩ := hh
        refine ⟨0, Nat.succ_pos f, rfl, fun i hi => absurd hi (Nat.not_lt_zero i), ?_, ?_, ?_,
          Or.inr ⟨e, hstore, hkey, ?_⟩⟩
        · rw [← ht2]
          simp
        · rw [probeAdvances]
          split
          next hnone => rw [hstore] at hnone; cases hnone
          next eP hsome =>
            rw [hstore] at hsome
            cases hsome
            rw [hkey]
        · obtain ⟨hlt, -⟩ := List.getElem?_eq_some_iff.mp hstore
          exact hlt
        · rw [← ht2]

theorem insertAux_spec [DecidableEq A] (hash : A → Nat) :
    ∀ (fuel : Nat) (t : Table A B) (k : A) (v : B) (idx : Nat) (t2 : Table A B),
      insertAux hash fuel t k v idx = some t2 →
      ∃ m p, m < fuel ∧ p = stepIter t.store.length (hash k) idx m ∧
        (∀ i < m, ∃ kI, slotKey t (stepIter t.store.length (hash k) idx i) = some kI ∧ kI ≠ k) ∧
        p < t.store.length ∧
        (slotKey t p = none ∨ slotKey t p = some k) ∧
        t2.store = t.store.set p (Entry.mk (some k) v) ∧
        t2.collisions = t.collisions := by
  intro fuel
  induction fuel with
  | zero => intro t k v idx t2 h; simp [insertAux] at h
  | succ f ih =>
    intro t k v idx t2 h
    rw [insertAux] at h
    split at h
    · exact absurd h (by simp)
    next e hstore =>
      split at h
      next kP hkey =>
        split at h
        next hk =>
          have ht2 : ({ t with store := t.store.set idx (Entry.mk (some k) v) } : Table A B) = t2 := by
            simpa using h
          subst hk
          refine ⟨0, idx, Nat.succ_pos f, rfl, fun i hi => absurd hi (Nat.not_lt_zero i), ?_,
            Or.inr ?_, ?_, ?_⟩
          · obtain ⟨hlt, -⟩ := List.getElem?_eq_some_iff.mp hstore
            exact hlt
          · simp [slotKey, hstore, hkey]
          · rw [← ht2]
          · rw [← ht2]
        next hk =>
          obtain ⟨m, p, hm, hp, hpre, hplt, hslot, hst, hcoll⟩ :=
            ih t k v (probeStep t.store.length (hash k) idx) t2 h
          refine ⟨m + 1, p, Nat.succ_lt_succ hm, ?_, ?_, hplt, hslot, hst, hcoll⟩
          · rw [stepIter_succ]
            exact hp
          · intro i hi
            cases i with
            | zero =>
              refine ⟨kP, ?_, hk⟩
              simp [slotKey, stepIter, hstore, hkey]
            | succ iP =>
              rw [stepIter_succ]
              exact hpre iP (Nat.lt_of_succ_lt_succ hi)
      next hkey =>
        have ht2 : ({ t with store := t.store.set idx (Entry.mk (some k) v) } : Table A B) = t2 := by
          simpa using h
        refine ⟨0, idx, Nat.succ_pos f, rfl, fun i hi => absurd hi (Nat.not_lt_zero i), ?_,
          Or.inl ?_, ?_, ?_⟩
        · obtain ⟨hlt, -⟩ := List.getElem?_eq_some_iff.mp hstore
          exact hlt
        · simp [slotKey, hstore, hkey]
        · rw [← ht2]
        · rw [← ht2]

/- Collision accounting across a sequence of emplace calls. -/

theorem emplaceSeqAdv_aux [DecidableEq A] (hash : A → Nat) :
    ∀ (keys : List A) (t t2 : Table A B) (acc : Nat),
      emplaceSeq hash keys t = some t2 →
      ∃ total,
        keys.foldlM
            (fun acc k =>
              match probeAdvances hash (acc.1.store.length + 1) acc.1.store k
                  (hash k % acc.1.store.length), Table.emplace hash acc.1 k with
              | some a, some tp => some (tp.1, acc.2 + a)
              | _, _ => none)
            ((t, acc) : Table A B × Nat) = some (t2, acc + total) ∧
        t2.collisions = t.collisions + total := by
  intro keys
  induction keys with
  | nil =>
    intro t t2 acc h
    rw [emplaceSeq] at h
    have ht : t = t2 := by simpa [List.foldlM] using h
    subst ht
    exact ⟨0, by simp [List.foldlM], by simp⟩
  | cons k ks ih =>
    intro t t2 acc h
    rw [emplaceSeq, List.foldlM] at h
    cases hemp : Table.emplace hash t k with
    | none => rw [hemp] at h; cases h
    | some tp =>
      rw [hemp] at h
      simp only [Option.map_some', Option.some_bind] at h
      obtain ⟨m, -, -, -, hcoll, hadv, -, -⟩ :=
        empAux_spec hash (t.store.length + 1) t k (hash k % t.store.length) tp.1 tp.2 hemp
      obtain ⟨total, hfold, hcoll2⟩ := ih tp.1 t2 (acc + m) h
      refine ⟨m + total, ?_, by omega⟩
      rw [List.foldlM]
      rw [hadv, hemp]
      simpa [Nat.add_assoc] using hfold

/-- C6: across any sequence of `emplace` calls, `collision_count()` never
decreases, and the final count exceeds the initial one by exactly the total
number of probe-advances (steps past an occupied non-matching slot) those
calls performed, where the advance counts are given by the independent
`probeAdvances` recount of each call's probe. -/
theorem c6_collision_count [DecidableEq A] (hash : A → Nat) (keys : List A) (t t2 : Table A B)
    (h : emplaceSeq hash keys t = some t2) :
    t.collisions ≤ t2.collisions ∧
    ∃ total, emplaceSeqAdv hash keys t = some (t2, total) ∧
      t2.collisions = t.collisions + total := by
  obtain ⟨total, hfold, hcoll⟩ := emplaceSeqAdv_aux hash keys t t2 0 h
  exact ⟨by omega, total, by simpa [emplaceSeqAdv] using hfold, hcoll⟩

theorem c6_witness :
    (Table.new 4 (0 : Nat) : Table Nat Nat).collisions ≤
      (⟨[⟨some 1, 0⟩, ⟨none, 0⟩, ⟨some 2, 0⟩, ⟨none, 0⟩], 1⟩ : Table Nat Nat).collisions ∧
    ∃ total, emplaceSeqAdv cexHash [1, 2] (Table.new 4 (0 : Nat) : Table Nat Nat) =
        some (⟨[⟨some 1, 0⟩, ⟨none, 0⟩, ⟨some 2, 0⟩, ⟨none, 0⟩], 1⟩, total) ∧
      (⟨[⟨some 1, 0⟩, ⟨none, 0⟩, ⟨some 2, 0⟩, ⟨none, 0⟩], 1⟩ : Table Nat Nat).collisions =
        (Table.new 4 (0 : Nat) : Table Nat Nat).collisions + total :=
  c6_collision_count cexHash [1, 2] (Table.new 4 (0 : Nat))
    ⟨[⟨some 1, 0⟩, ⟨none, 0⟩, ⟨some 2, 0⟩, ⟨none, 0⟩], 1⟩ (by decide)

/-- C10: `insert` leaves the collision counter unchanged for every table,
key and value (its probe loop, unlike `emplace`'s, never touches
`collisions`); `get` and `get_mut` leave the whole table — every slot and
the counter — unchanged (they perform no writes; `get` takes `&self`); and
`emplace` only ever increases the counter. -/
theorem c10_frame [DecidableEq A] (hash : A → Nat) (fuel : Nat) (t : Table A B)
    (op : TableOp A B) (t2 : Table A B) (out : OpOut B)
    (h : runOp hash fuel t op = some (t2, out)) :
    ((∃ k v, op = TableOp.ins k v) → t2.collisions = t.collisions) ∧
    (∀ k, op = TableOp.lookup k → t2 = t) ∧
    (∀ k, op = TableOp.lookupMut k → t2 = t) ∧
    ((∃ k, op = TableOp.emp k) → t.collisions ≤ t2.collisions) := by
  cases op with
  | ins k v =>
    refine ⟨?_, ?_, ?_, ?_⟩
    · intro _
      rw [runOp] at h
      cases hins : insertAux hash fuel t k v (hash k % t.store.length) with
      | none => rw [hins] at h; cases h
      | some t3 =>
        rw [hins] at h
        simp only [Option.map_some'] at h
        have ht3 : t3 = t2 := congrArg Prod.fst (Option.some.inj h)
        obtain ⟨m, p, -, -, -, -, -, -, hcoll⟩ := insertAux_spec hash fuel t k v _ t3 hins
        rw [← ht3]
        exact hcoll
    · intro k2 h2
      cases h2
    · intro k2 h2
      cases h2
    · intro h2
      obtain ⟨k2, h2⟩ := h2
      cases h2
  | emp k =>
    refine ⟨?_, ?_, ?_, ?_⟩
    · intro h2
      obtain ⟨k2, v2, h2⟩ := h2
      cases h2
    · intro k2 h2
      cases h2
    · intro k2 h2
      cases h2
    · intro _
      rw [runOp] at h
      cases hemp : empAux hash fuel t k (hash k % t.store.length) with
      | none => rw [hemp] at h; cases h
      | some tp =>
        rw [hemp] at h
        simp only [Option.map_some'] at h
        have ht3 : tp.1 = t2 := congrArg Prod.fst (Option.some.inj h)
        obtain ⟨m, -, -, -, hcoll, -, -, -⟩ :=
          empAux_spec hash fuel t k (hash k % t.store.length) tp.1 tp.2 hemp
        rw [← ht3]
        omega
  | lookup k =>
    refine ⟨?_, ?_, ?_, ?_⟩
    · intro h2
      obtain ⟨k2, v2, h2⟩ := h2
      cases h2
    · intro k2 _
      rw [runOp] at h
      cases hget : getAux hash fuel t k (hash k % t.store.length) with
      | none => rw [hget] at h; cases h
      | some r =>
        rw [hget] at h
        simp only [Option.map_some'] at h
        exact (congrArg Prod.fst (Option.some.inj h)).symm
    · intro k2 h2
      cases h2
    · intro h2
      obtain ⟨k2, h2⟩ := h2
      cases h2
  | lookupMut k =>
    refine ⟨?_, ?_, ?_, ?_⟩
    · intro h2
      obtain ⟨k2, v2, h2⟩ := h2
      cases h2
    · intro k2 h2
      cases h2
    · intro k2 _
      rw [runOp] at h
      cases hget : getMutAux hash fuel t k (hash k % t.store.length) with
      | none => rw [hget] at h; cases h
      | some r =>
        rw [hget] at h
        simp only [Option.map_some'] at h
        exact (congrArg Prod.fst (Option.some.inj h)).symm
    · intro h2
      obtain ⟨k2, h2⟩ := h2
      cases h2

theorem c10_witness :
    ((∃ k v, (TableOp.ins 1 10 : TableOp Nat Nat) = TableOp.ins k v) →
      (⟨[⟨none, 0⟩, ⟨some 1, 10⟩], 0⟩ : Table Nat Nat).collisions =
        (Table.new 2 (0 : Nat) : Table Nat Nat).collisions) ∧
    (∀ k, (TableOp.ins 1 10 : TableOp Nat Nat) = TableOp.lookup k →
      (⟨[⟨none, 0⟩, ⟨some 1, 10⟩], 0⟩ : Table Nat Nat) = Table.new 2 (0 : Nat)) ∧
    (∀ k, (TableOp.ins 1 10 : TableOp Nat Nat) = TableOp.lookupMut k →
      (⟨[⟨none, 0⟩, ⟨some 1, 10⟩], 0⟩ : Table Nat Nat) = Table.new 2 (0 : Nat)) ∧
    ((∃ k, (TableOp.ins 1 10 : TableOp Nat Nat) = TableOp.emp k) →
      (Table.new 2 (0 : Nat) : Table Nat Nat).collisions ≤
        (⟨[⟨none, 0⟩, ⟨some 1, 10⟩], 0⟩ : Table Nat Nat).collisions) :=
  c10_frame (fun _ => 1) 3 (Table.new 2 (0 : Nat)) (TableOp.ins 1 10)
    ⟨[⟨none, 0⟩, ⟨some 1, 10⟩], 0⟩ OpOut.unit (by decide)

/- The spec's lookup invariant is preserved by every operation. -/

theorem slotKey_congr (t t2 : Table A B) (hst : t2.store = t.store) (i : Nat) :
    slotKey t2 i = slotKey t i := by
  rw [slotKey, slotKey, hst]

theorem slotKey_after_set (t t2 : Table A B) (p : Nat) (e : Entry A B)
    (hst : t2.store = t.store.set p e) (hp : p < t.store.length) :
    slotKey t2 p = e.key ∧ ∀ i, i ≠ p → slotKey t2 i = slotKey t i := by
  constructor
  · rw [slotKey, hst, List.getElem?_set_self hp]
  · intro i hip
    rw [slotKey, slotKey, hst, List.getElem?_set_ne (Ne.symm hip)]

theorem inv_congr_store [DecidableEq A] (hash : A → Nat) (t t2 : Table A B)
    (hst : t2.store = t.store) (hinv : Inv hash t) : Inv hash t2 := by
  intro k hres
  obtain ⟨i, e, hi, hkey⟩ := hres
  have hi2 : t.store[i]? = some e := by rw [← hst]; exact hi
  obtain ⟨j, hsl, hpre⟩ := hinv k ⟨i, e, hi2, hkey⟩
  have hlen : t2.store.length = t.store.length := by rw [hst]
  refine ⟨j, ?_, ?_⟩
  · rw [hlen, slotKey_congr t t2 hst]
    exact hsl
  · intro i2 hi2l
    rw [hlen, slotKey_congr t t2 hst]
    exact hpre i2 hi2l

theorem inv_preserved_write [DecidableEq A] (hash : A → Nat) (t t2 : Table A B) (k : A)
    (m p : Nat) (enew : Entry A B) (hkeynew : enew.key = some k)
    (hp : p = stepIter t.store.length (hash k) (hash k % t.store.length) m)
    (hpre : ∀ i < m, ∃ kI,
      slotKey t (stepIter t.store.length (hash k) (hash k % t.store.length) i) = some kI ∧ kI ≠ k)
    (hplt : p < t.store.length)
    (hslot : slotKey t p = none ∨ slotKey t p = some k)
    (hst : t2.store = t.store.set p enew)
    (hinv : Inv hash t) : Inv hash t2 := by
  have hlen : t2.store.length = t.store.length := by rw [hst]; simp
  have hset := slotKey_after_set t t2 p enew hst hplt
  intro k0 hres
  by_cases hk0 : k0 = k
  · subst hk0
    refine ⟨m, ?_, ?_⟩
    · rw [hlen, ← hp, hset.1, hkeynew]
    · intro i hi
      rw [hlen]
      by_cases hq : stepIter t.store.length (hash k0) (hash k0 % t.store.length) i = p
      · rw [hq, hset.1, hkeynew]
        rfl
      · rw [hset.2 _ hq]
        obtain ⟨kI, hkI, -⟩ := hpre i hi
        rw [hkI]
        rfl
  · obtain ⟨i, e0, hi0, hkey0⟩ := hres
    have hip : i ≠ p := by
      intro hip
      subst hip
      rw [hst, List.getElem?_set_self hplt] at hi0
      cases hi0
      rw [hkeynew] at hkey0
      exact hk0 (Option.some.inj hkey0).symm
    have hres0 : Resident t k0 := by
      refine ⟨i, e0, ?_, hkey0⟩
      rw [hst, List.getElem?_set_ne (Ne.symm hip)] at hi0
      exact hi0
    obtain ⟨j, hsl, hpre0⟩ := hinv k0 hres0
    refine ⟨j, ?_, ?_⟩
    · rw [hlen]
      have hq : stepIter t.store.length (hash k0) (hash k0 % t.store.length) j ≠ p := by
        intro hq
        rw [hq] at hsl
        rcases hslot with hn | hk1
        · rw [hn] at hsl
          cases hsl
        · rw [hk1] at hsl
          exact hk0 (Option.some.inj hsl).symm
      rw [hset.2 _ hq]
      exact hsl
    · intro i2 hi2
      rw [hlen]
      by_cases hq : stepIter t.store.length (hash k0) (hash k0 % t.store.length) i2 = p
      · rw [hq, hset.1, hkeynew]
        rfl
      · rw [hset.2 _ hq]
        exact hpre0 i2 hi2

theorem inv_new [DecidableEq A] (hash : A → Nat) (N : Nat) (b : B) :
    Inv hash (Table.new N b : Table A B) := by
  intro k hres
  obtain ⟨i, e, hi, hkey⟩ := hres
  rw [Table.new] at hi
  rw [List.getElem?_replicate] at hi
  split at hi
  · cases hi
    cases hkey
  · cases hi

/-- C7: every table operation preserves the invariant that, for any
resident key `k`, probing from `hash(k) % N` with increment
`reverse_bits(hash(k))` reaches `k`'s slot before reaching any empty slot.
`insert` and `emplace` only fill an empty slot on the probed key's own path
(whose prefix is fully occupied) or rewrite the key's own slot, so every
previously resident key's witness survives; `get` takes `&self` and
`get_mut` writes no slot, so they leave the table unchanged.  Each part is
conditioned on the call returning (a call that never terminates has no
resulting table); the claim's capacity proviso is not needed for
preservation. -/
theorem c7_invariant_preserved [DecidableEq A] (hash : A → Nat) (fuel : Nat) (t : Table A B)
    (k : A) (v : B) (hinv : Inv hash t) :
    (∀ t2, Table.insert hash fuel t k v = some t2 → Inv hash t2) ∧
    (∀ t2 p, Table.emplace hash t k = some (t2, p) → Inv hash t2) ∧
    (∀ r, Table.get hash fuel t k = some r → Inv hash t) ∧
    (∀ r, Table.getMut hash fuel t k = some r → Inv hash t) := by
  refine ⟨?_, ?_, fun _ _ => hinv, fun _ _ => hinv⟩
  · intro t2 h
    obtain ⟨m, p, -, hp, hpre, hplt, hslot, hst, -⟩ :=
      insertAux_spec hash fuel t k v (hash k % t.store.length) t2 h
    exact inv_preserved_write hash t t2 k m p (Entry.mk (some k) v) rfl hp hpre hplt hslot hst hinv
  · intro t2 p h
    obtain ⟨m, -, hp, hpre, -, -, hplt, hdisj⟩ :=
      empAux_spec hash (t.store.length + 1) t k (hash k % t.store.length) t2 p h
    rcases hdisj with ⟨e0, hi0, hkey0, hst⟩ | ⟨e0, hi0, hkey0, hst⟩
    · exact inv_congr_store hash t t2 hst hinv
    · refine inv_preserved_write hash t t2 k m p (Entry.mk (some k) e0.value) rfl hp hpre hplt
        (Or.inl ?_) hst hinv
      simp [slotKey, hi0, hkey0]

theorem c7_witness :
    Inv cexHash (⟨[⟨some 1, 10⟩, ⟨none, 0⟩, ⟨none, 0⟩, ⟨none, 0⟩], 0⟩ : Table Nat Nat) :=
  (c7_invariant_preserved cexHash 1 (Table.new 4 (0 : Nat)) 1 10 (inv_new cexHash 4 0)).1
    ⟨[⟨some 1, 10⟩, ⟨none, 0⟩, ⟨none, 0⟩, ⟨none, 0⟩], 0⟩ (by decide)

/- Insert/get round trip. -/

theorem lastVal_append_single [DecidableEq A] (l : List (A × B)) (p : A × B) (k : A) :
    lastVal (l ++ [p]) k = if p.1 = k then some p.2 else lastVal l k := by
  rw [lastVal, List.reverse_append]
  simp only [List.reverse_cons, List.reverse_nil, List.nil_append, List.singleton_append,
    List.find?]
  by_cases h : p.1 = k
  · simp [h]
  · simp [h, lastVal]

theorem lastVal_mem [DecidableEq A] (l : List (A × B)) (k : A) (v : B)
    (h : lastVal l k = some v) : (k, v) ∈ l := by
  rw [lastVal] at h
  cases hf : l.reverse.find? (fun kv => decide (kv.1 = k)) with
  | none => rw [hf] at h; cases h
  | some pr =>
    rw [hf] at h
    have hk : pr.1 = k := by simpa using List.find?_some hf
    have hmem : pr ∈ l.reverse := List.mem_of_find?_eq_some hf
    have hv : pr.2 = v := by simpa using h
    have : pr = (k, v) := by
      cases pr
      simp_all
    rw [← this]
    exact List.mem_reverse.mp hmem

theorem lastVal_isSome_of_mem [DecidableEq A] (l : List (A × B)) (p : A × B)
    (h : p ∈ l) : ∃ v, lastVal l p.1 = some v := by
  rw [lastVal]
  cases hf : l.reverse.find? (fun kv => decide (kv.1 = p.1)) with
  | none =>
    exfalso
    have : ∀ x ∈ l.reverse, ¬(fun kv : A × B => decide (kv.1 = p.1)) x = true := by
      intro x hx hpx
      rw [List.find?_eq_none] at hf
      exact hf x hx hpx
    exact this p (List.mem_reverse.mpr h) (by simp)
  | some pr => exact ⟨pr.2, by simp⟩

theorem insertAux_immediate [DecidableEq A] (hash : A → Nat) (f : Nat) (t : Table A B)
    (k : A) (v : B) (idx : Nat) (e : Entry A B)
    (hstore : t.store[idx]? = some e) (hk : e.key = none ∨ e.key = some k) :
    insertAux hash (f + 1) t k v idx =
      some { t with store := t.store.set idx (Entry.mk (some k) v) } := by
  rcases hk with hk | hk
  · simp [insertAux, hstore, hk]
  · simp [insertAux, hstore, hk]

theorem insertSeq_roundtrip_aux [DecidableEq A] (hash : A → Nat) (N : Nat) (hN : 0 < N)
    (fuel : Nat) (hfuel : 1 ≤ fuel) (ops : List (A × B))
    (hdist : ∀ p ∈ ops, ∀ q ∈ ops, p.1 ≠ q.1 → hash p.1 % N ≠ hash q.1 % N) :
    ∀ (rest seen : List (A × B)) (t : Table A B),
      (∀ p ∈ rest, p ∈ ops) → (∀ p ∈ seen, p ∈ ops) →
      t.store.length = N →
      (∀ i k0, slotKey t i = some k0 → i = hash k0 % N ∧ ∃ v0, lastVal seen k0 = some v0) →
      (∀ k0 v0, lastVal seen k0 = some v0 →
        t.store[hash k0 % N]? = some (Entry.mk (some k0) v0)) →
      ∃ t2, insertSeq hash fuel rest t = some t2 ∧ t2.store.length = N ∧
        (∀ i k0, slotKey t2 i = some k0 →
          i = hash k0 % N ∧ ∃ v0, lastVal (seen ++ rest) k0 = some v0) ∧
        (∀ k0 v0, lastVal (seen ++ rest) k0 = some v0 →
          t2.store[hash k0 % N]? = some (Entry.mk (some k0) v0)) := by
  intro rest
  induction rest with
  | nil =>
    intro seen t hrest hseen hlen g1 g2
    refine ⟨t, ?_, hlen, by simpa using g1, by simpa using g2⟩
    rw [insertSeq]
    rfl
  | cons p restP ih =>
    intro seen t hrest hseen hlen g1 g2
    obtain ⟨k, v⟩ := p
    have hlt : hash k % N < t.store.length := by rw [hlen]; exact Nat.mod_lt _ hN
    cases hstore : t.store[hash k % N]? with
    | none =>
      exfalso
      rw [List.getElem?_eq_none_iff] at hstore
      omega
    | some e =>
      have hkey : e.key = none ∨ e.key = some k := by
        cases hkey : e.key with
        | none => exact Or.inl rfl
        | some kQ =>
          refine Or.inr ?_
          by_cases hkk : kQ = k
          · rw [hkk]
          · exfalso
            have hsk : slotKey t (hash k % N) = some kQ := by simp [slotKey, hstore, hkey]
            obtain ⟨hhome, v0, hv0⟩ := g1 (hash k % N) kQ hsk
            have hmem : (kQ, v0) ∈ ops := hseen _ (lastVal_mem seen kQ v0 hv0)
            have hmem2 : ((k, v) : A × B) ∈ ops := hrest _ (List.mem_cons_self _ _)
            exact hdist (kQ, v0) hmem (k, v) hmem2 hkk hhome.symm
      obtain ⟨f, rfl⟩ : ∃ f, fuel = f + 1 := ⟨fuel - 1, by omega⟩
      have hstep : Table.insert hash (f + 1) t k v =
          some { t with store := t.store.set (hash k % N) (Entry.mk (some k) v) } := by
        rw [Table.insert, hlen]
        exact insertAux_immediate hash f t k v (hash k % N) e hstore hkey
      set tP : Table A B :=
        { t with store := t.store.set (hash k % N) (Entry.mk (some k) v) } with htP
      have hsetP : tP.store = t.store.set (hash k % N) (Entry.mk (some k) v) := rfl
      have hset := slotKey_after_set t tP (hash k % N) (Entry.mk (some k) v) hsetP hlt
      have hlenP : tP.store.length = N := by
        rw [hsetP, List.length_set, hlen]
      have g1P : ∀ i k0, slotKey tP i = some k0 →
          i = hash k0 % N ∧ ∃ v0, lastVal (seen ++ [(k, v)]) k0 = some v0 := by
        intro i k0 hsk
        by_cases hih : i = hash k % N
        · subst hih
          rw [hset.1] at hsk
          have hk0 : k0 = k := (Option.some.inj hsk).symm
          subst hk0
          refine ⟨rfl, v, ?_⟩
          rw [lastVal_append_single]
          simp
        · rw [hset.2 _ hih] at hsk
          obtain ⟨hhome, v0, hv0⟩ := g1 i k0 hsk
          refine ⟨hhome, ?_⟩
          rw [lastVal_append_single]
          by_cases hkk : k = k0
          · exact ⟨v, by simp [hkk]⟩
          · exact ⟨v0, by simp [hkk, hv0]⟩
      have g2P : ∀ k0 v0, lastVal (seen ++ [(k, v)]) k0 = some v0 →
          tP.store[hash k0 % N]? = some (Entry.mk (some k0) v0) := by
        intro k0 v0 hlast
        rw [lastVal_append_single] at hlast
        by_cases hkk : k = k0
        · rw [if_pos hkk] at hlast
          have hv0 : v0 = v := (Option.some.inj hlast).symm
          subst hv0
          subst hkk
          rw [hsetP, List.getElem?_set_self hlt]
        · rw [if_neg hkk] at hlast
          have hold := g2 k0 v0 hlast
          have hne : hash k0 % N ≠ hash k % N := by
            intro heq
            rw [heq, hstore] at hold
            have he : e = Entry.mk (some k0) v0 := Option.some.inj hold
            rcases hkey with hk1 | hk1 <;> rw [he] at hk1 <;> simp at hk1
            exact hkk hk1.symm
          rw [hsetP, List.getElem?_set_ne (Ne.symm hne)]
          exact hold
      obtain ⟨t2, hrun, hlen2, g1F, g2F⟩ :=
        ih (seen ++ [(k, v)]) tP (fun q hq => hrest q (List.mem_cons_of_mem _ hq))
          (fun q hq => by
            rcases List.mem_append.mp hq with hq | hq
            · exact hseen q hq
            · rw [List.mem_singleton] at hq
              subst hq
              exact hrest _ (List.mem_cons_self _ _))
          hlenP g1P g2P
      refine ⟨t2, ?_, hlen2, ?_, ?_⟩
      · rw [insertSeq, List.foldlM, hstep]
        simpa [insertSeq] using hrun
      · intro i k0 hsk
        obtain ⟨hhome, v0, hv0⟩ := g1F i k0 hsk
        refine ⟨hhome, v0, ?_⟩
        rw [List.append_assoc] at hv0
        simpa using hv0
      · intro k0 v0 hv0
        refine g2F k0 v0 ?_
        rw [List.append_assoc]
        simpa using hv0

/-- C1: the claim — after a below-capacity sequence of inserts with
distinct keys, `get(key)` returns the latest value inserted for `key` — is
FALSE on the source whenever two inserted keys share a home slot: the
loser is relocated by `insert`, but `get` stops with `None` at the first
occupied non-matching slot (see the counterexample).  Amended: the round
trip holds provided distinct inserted keys have pairwise distinct home
slots `hash(key) % N` (so no probe collisions arise); repeated inserts of
one key still leave the latest value. -/
theorem c1_insert_get_roundtrip [DecidableEq A] (hash : A → Nat) (fuel : Nat)
    (ops : List (A × B)) (N : Nat) (b : B) (hN : 0 < N) (hfuel : 1 ≤ fuel)
    (hdist : ∀ p ∈ ops, ∀ q ∈ ops, p.1 ≠ q.1 → hash p.1 % N ≠ hash q.1 % N) :
    ∃ t2, insertSeq hash fuel ops (Table.new N b) = some t2 ∧
      ∀ p ∈ ops, ∃ v, lastVal ops p.1 = some v ∧ Table.get hash 1 t2 p.1 = some (some v) := by
  have hg1 : ∀ i k0, slotKey (Table.new N b : Table A B) i = some k0 →
      i = hash k0 % N ∧ ∃ v0, lastVal ([] : List (A × B)) k0 = some v0 := by
    intro i k0 hsk
    exfalso
    rw [slotKey, Table.new] at hsk
    rw [List.getElem?_replicate] at hsk
    split at hsk
    next e heq =>
      split at heq
      · cases heq
        simp at hsk
      · cases heq
    next heq => exact Option.noConfusion hsk
  have hg2 : ∀ k0 v0, lastVal ([] : List (A × B)) k0 = some v0 →
      (Table.new N b : Table A B).store[hash k0 % N]? = some (Entry.mk (some k0) v0) := by
    intro k0 v0 hv0
    cases hv0
  obtain ⟨t2, hrun, hlen2, g1F, g2F⟩ :=
    insertSeq_roundtrip_aux hash N hN fuel hfuel ops hdist ops [] (Table.new N b)
      (fun _ hq => hq) (fun _ hq => absurd hq (List.not_mem_nil _))
      (by rw [Table.new]; exact List.length_replicate ..) hg1 hg2
  refine ⟨t2, hrun, ?_⟩
  intro p hp
  obtain ⟨v, hv⟩ := lastVal_isSome_of_mem ops p hp
  refine ⟨v, hv, ?_⟩
  have hslot := g2F p.1 v (by simpa using hv)
  rw [Table.get, hlen2, getAux]
  rw [hslot]
  simp

theorem c1_witness :
    ∃ t2, insertSeq (fun k => k) 1 [(0, 5), (1, 6)] (Table.new 4 (0 : Nat)) = some t2 ∧
      ∀ p ∈ ([(0, 5), (1, 6)] : List (Nat × Nat)), ∃ v,
        lastVal [(0, 5), (1, 6)] p.1 = some v ∧
        Table.get (fun k => k) 1 t2 p.1 = some (some v) :=
  c1_insert_get_roundtrip (fun k => k) 1 [(0, 5), (1, 6)] 4 0 (by decide) (by decide) (by decide)

theorem c1_counterexample :
    (1 : Nat) ≠ 2 ∧ (2 : Nat) < 4 ∧
    (insertSeq cexHash 100 [(1, 10), (2, 20)] (Table.new 4 (0 : Nat))).bind
        (fun t => Table.get cexHash 100 t 2) = some none ∧
    (insertSeq cexHash 100 [(1, 10), (2, 20)] (Table.new 4 (0 : Nat))).bind
        (fun t => Table.get cexHash 100 t 2) ≠ some (some 20) :=
  ⟨by decide, by decide, by decide, by decide⟩

/- The key scan of the worker aggregation pass. -/

theorem findSemiAux_ge (c : Bytes) : ∀ (fuel i : Nat), i ≤ findSemiAux c fuel i := by
  intro fuel
  induction fuel with
  | zero => intro i; simp [findSemiAux]
  | succ f ih =>
    intro i
    rw [findSemiAux]
    split_ifs with h1 h2
    · exact Nat.le_refl i
    · exact Nat.le_trans (Nat.le_succ i) (ih (i + 1))
    · exact Nat.le_refl i

theorem findSemi_ge (c : Bytes) (i : Nat) : i ≤ findSemi c i :=
  findSemiAux_ge c (c.length + 1) i

theorem findSemiAux_congr (c1 c2 : Bytes) (hlen : c1.length = c2.length)
    (hag : ∀ j, 3 ≤ j → j < c1.length → c1.getD j 0 = c2.getD j 0) :
    ∀ (fuel i : Nat), 3 ≤ i → findSemiAux c1 fuel i = findSemiAux c2 fuel i := by
  intro fuel
  induction fuel with
  | zero => intro i _; rfl
  | succ f ih =>
    intro i h3
    rw [findSemiAux, findSemiAux, ← hlen]
    by_cases hi : i < c1.length
    · rw [if_pos hi, if_pos hi, ← hag i h3 hi]
      by_cases hb : c1.getD i 0 = 59
      · rw [if_pos hb, if_pos hb]
      · rw [if_neg hb, if_neg hb]
        exact ih (i + 1) (by omega)
    · rw [if_neg hi, if_neg hi]

theorem itemsList_cons_some (e : Entry A B) (tl : List (Entry A B)) (k : A)
    (hk : e.key = some k) : itemsList (e :: tl) = (k, e.value) :: itemsList tl := by
  simp [itemsList, hk]

theorem itemsList_cons_none (e : Entry A B) (tl : List (Entry A B))
    (hk : e.key = none) : itemsList (e :: tl) = itemsList tl := by
  simp [itemsList, hk]

theorem keys_itemsList_cons (hd : Entry A B) (tl : List (Entry A B)) (k : A)
    (h : k ∈ (itemsList tl).map Prod.fst) : k ∈ (itemsList (hd :: tl)).map Prod.fst := by
  cases hkey : hd.key with
  | some kh =>
    rw [itemsList_cons_some hd tl kh hkey]
    simp only [List.map_cons, List.mem_cons]
    exact Or.inr h
  | none =>
    rw [itemsList_cons_none hd tl hkey]
    exact h

theorem keys_itemsList_set (l : List (Entry A B)) :
    ∀ (idx : Nat) (e : Entry A B) (k : A),
      k ∈ (itemsList (l.set idx e)).map Prod.fst →
      e.key = some k ∨ k ∈ (itemsList l).map Prod.fst := by
  induction l with
  | nil =>
    intro idx e k h
    simp [itemsList] at h
  | cons hd tl ih =>
    intro idx e k h
    cases idx with
    | zero =>
      rw [List.set_cons_zero] at h
      cases hkey : e.key with
      | some ke =>
        rw [itemsList_cons_some e tl ke hkey] at h
        simp only [List.map_cons, List.mem_cons] at h
        rcases h with h | h
        · exact Or.inl (congrArg some h.symm)
        · exact Or.inr (keys_itemsList_cons hd tl k h)
      | none =>
        rw [itemsList_cons_none e tl hkey] at h
        exact Or.inr (keys_itemsList_cons hd tl k h)
    | succ n =>
      rw [List.set_cons_succ] at h
      cases hkey : hd.key with
      | some kh =>
        rw [itemsList_cons_some hd _ kh hkey] at h
        simp only [List.map_cons, List.mem_cons] at h
        rcases h with h | h
        · refine Or.inr ?_
          rw [itemsList_cons_some hd tl kh hkey]
          simp [h]
        · rcases ih n e k h with h2 | h2
          · exact Or.inl h2
          · refine Or.inr ?_
            rw [itemsList_cons_some hd tl kh hkey]
            simp only [List.map_cons, List.mem_cons]
            exact Or.inr h2
      | none =>
        rw [itemsList_cons_none hd _ hkey] at h
        rcases ih n e k h with h2 | h2
        · exact Or.inl h2
        · refine Or.inr ?_
          rw [itemsList_cons_none hd tl hkey]
          exact h2

theorem keys_itemsList_get (l : List (Entry A B)) :
    ∀ (idx : Nat) (e : Entry A B) (k : A), l[idx]? = some e → e.key = some k →
      k ∈ (itemsList l).map Prod.fst := by
  induction l with
  | nil =>
    intro idx e k h _
    simp at h
  | cons hd tl ih =>
    intro idx e k h hk
    cases idx with
    | zero =>
      rw [List.getElem?_cons_zero] at h
      cases h
      rw [itemsList_cons_some hd tl k hk]
      simp
    | succ n =>
      rw [List.getElem?_cons_succ] at h
      exact keys_itemsList_cons hd tl k (ih n e k h hk)

theorem keys_modifyValue (t : Table A B) (idx : Nat) (f : B → B) (k : A)
    (h : k ∈ (itemsList (t.modifyValue idx f).store).map Prod.fst) :
    k ∈ (itemsList t.store).map Prod.fst := by
  rw [Table.modifyValue] at h
  split at h
  next e heq =>
    rcases keys_itemsList_set t.store idx (Entry.mk e.key (f e.value)) k h with h2 | h2
    · exact keys_itemsList_get t.store idx e k heq (by simpa using h2)
    · exact h2
  next heq => exact h

theorem keys_emplace [DecidableEq A] (hash : A → Nat) (t t2 : Table A B) (k : A) (p : Nat)
    (h : Table.emplace hash t k = some (t2, p)) (k0 : A)
    (hk0 : k0 ∈ (itemsList t2.store).map Prod.fst) :
    k0 = k ∨ k0 ∈ (itemsList t.store).map Prod.fst := by
  obtain ⟨m, -, -, -, -, -, -, hdisj⟩ :=
    empAux_spec hash (t.store.length + 1) t k (hash k % t.store.length) t2 p h
  rcases hdisj with ⟨e0, -, -, hst⟩ | ⟨e0, -, -, hst⟩
  · rw [hst] at hk0
    exact Or.inr hk0
  · rw [hst] at hk0
    rcases keys_itemsList_set t.store p (Entry.mk (some k) e0.value) k0 hk0 with h2 | h2
    · refine Or.inl ?_
      have h3 : some k = some k0 := by simpa using h2
      exact (Option.some.inj h3).symm
    · exact Or.inr h2

theorem aggChunkAux_keys (hash : Bytes → Nat) :
    ∀ (fuel : Nat) (t : StatTable) (cursor : Bytes) (t2 : StatTable),
      aggChunkAux hash fuel t cursor = some t2 →
      (∀ k ∈ (itemsList t.store).map Prod.fst, 3 ≤ k.length) →
      ∀ k ∈ (itemsList t2.store).map Prod.fst, 3 ≤ k.length := by
  intro fuel
  induction fuel with
  | zero =>
    intro t cursor t2 h
    exact absurd h (by simp [aggChunkAux])
  | succ f ih =>
    intro t cursor t2 h hkeys
    simp only [aggChunkAux] at h
    split at h
    next hcond =>
      split at h
      · exact absurd h (by simp)
      next tr hpt =>
        split at h
        · exact absurd h (by simp)
        next ti hemp =>
          refine ih _ _ t2 h ?_
          intro k hk
          have hk2 := keys_modifyValue ti.1 ti.2 (fun s => s.add tr.1) k hk
          rcases keys_emplace hash t ti.1 (cursor.take (findSemi cursor 3)) ti.2 hemp k hk2
            with h2 | h2
          · subst h2
            have h3 := findSemi_ge cursor 3
            rw [List.length_take]
            omega
          · exact hkeys k h2
    next hcond =>
      have ht : t = t2 := Option.some.inj h
      subst ht
      exact hkeys

/-- C9: the scan for the record's `';'` delimiter starts at byte offset 3
of the record and never examines offsets 0 through 2 (the scan result is
unchanged under any modification of those bytes); consequently its result
is at least 3, every key `emplace`d by the worker aggregation pass — hence
every key in an aggregated table — is at least 3 bytes long, and a record
whose key is shorter than 3 bytes is never split at its own `';'`. -/
theorem c9_key_scan_offset3 (hash : Bytes → Nat) :
    (∀ c1 c2 : Bytes, c1.length = c2.length →
      (∀ j, 3 ≤ j → j < c1.length → c1.getD j 0 = c2.getD j 0) →
      findSemi c1 3 = findSemi c2 3) ∧
    (∀ c : Bytes, 3 ≤ findSemi c 3) ∧
    (∀ (fuel : Nat) (t : StatTable) (cursor : Bytes) (t2 : StatTable),
      aggChunkAux hash fuel t cursor = some t2 →
      (∀ k ∈ (itemsList t.store).map Prod.fst, 3 ≤ k.length) →
      ∀ k ∈ (itemsList t2.store).map Prod.fst, 3 ≤ k.length) := by
  refine ⟨?_, fun c => findSemi_ge c 3, aggChunkAux_keys hash⟩
  intro c1 c2 hlen hag
  rw [findSemi, findSemi, hlen]
  exact findSemiAux_congr c1 c2 hlen hag (c2.length + 1) 3 (Nat.le_refl 3)

theorem c9_witness :
    ∀ k ∈ (itemsList (⟨[⟨some [88, 88, 88], ⟨F32.finite 1, F32.finite 1, 1, F32.finite 1⟩⟩,
        ⟨none, Stat.DEFAULT_INSTANCE⟩, ⟨none, Stat.DEFAULT_INSTANCE⟩,
        ⟨none, Stat.DEFAULT_INSTANCE⟩], 0⟩ : StatTable).store).map Prod.fst,
      3 ≤ k.length :=
  (c9_key_scan_offset3 hashZero).2.2 9 (Table.new 4 Stat.DEFAULT_INSTANCE)
    [88, 88, 88, 59, 49, 46, 48, 10]
    ⟨[⟨some [88, 88, 88], ⟨F32.finite 1, F32.finite 1, 1, F32.finite 1⟩⟩,
      ⟨none, Stat.DEFAULT_INSTANCE⟩, ⟨none, Stat.DEFAULT_INSTANCE⟩,
      ⟨none, Stat.DEFAULT_INSTANCE⟩], 0⟩ (by decide) (by decide)

/- The end-to-end pipeline on the spec's example input. -/

theorem itemsList_replicate (n : Nat) (b : B) :
    itemsList (List.replicate n (Entry.mk (none : Option A) b)) = [] := by
  induction n with
  | zero => rfl
  | succ m ih => rw [List.replicate_succ, itemsList_cons_none _ _ rfl, ih]

theorem itemsList_replicate_set (n : Nat) (b : B) (p : Nat) (k : A) (v : B) (hp : p < n) :
    itemsList ((List.replicate n (Entry.mk (none : Option A) b)).set p (Entry.mk (some k) v)) =
      [(k, v)] := by
  induction n generalizing p with
  | zero => omega
  | succ m ih =>
    rw [List.replicate_succ]
    cases p with
    | zero =>
      rw [List.set_cons_zero, itemsList_cons_some _ _ k rfl, itemsList_replicate]
    | succ pP =>
      rw [List.set_cons_succ, itemsList_cons_none _ _ rfl]
      exact ih pP (by omega)

theorem emplace_into_new [DecidableEq A] (hash : A → Nat) (N : Nat) (b : B) (k : A)
    (hN : 0 < N) :
    Table.emplace hash (Table.new N b : Table A B) k =
      some (⟨(List.replicate N (Entry.mk (none : Option A) b)).set (hash k % N)
        (Entry.mk (some k) b), 0⟩, hash k % N) := by
  have hlen : (Table.new N b : Table A B).store.length = N := by
    rw [Table.new]
    exact List.length_replicate ..
  rw [Table.emplace, hlen, empAux]
  have hslot : (Table.new N b : Table A B).store[hash k % N]? = some (Entry.mk none b) := by
    rw [Table.new]
    exact List.getElem?_replicate_of_lt (Nat.mod_lt _ hN)
  rw [hslot]
  simp [Table.new]

theorem modifyValue_of_slot (t : Table A B) (p : Nat) (e : Entry A B) (f : B → B)
    (h : t.store[p]? = some e) :
    t.modifyValue p f = { t with store := t.store.set p (Entry.mk e.key (f e.value)) } := by
  rw [Table.modifyValue, h]

theorem aggChunkAux_nil (hash : Bytes → Nat) (f : Nat) (t : StatTable) :
    aggChunkAux hash (f + 1) t [] = some t := by
  rw [aggChunkAux]
  rw [if_neg (by decide : ¬(findSemi [] 3 < List.length ([] : Bytes)))]

theorem aggChunk1_eval (hash : Bytes → Nat) :
    aggregateChunk hash [88, 59, 49, 46, 48, 10, 89, 59, 45, 50, 46, 53, 10] =
      some (e2eTable hash) := by
  rw [aggregateChunk, aggChunkAux]
  rw [show findSemi [88, 59, 49, 46, 48, 10, 89, 59, 45, 50, 46, 53, 10] 3 = 7 from by decide]
  rw [if_pos (by decide :
    (7 : Nat) < List.length [88, 59, 49, 46, 48, 10, 89, 59, 45, 50, 46, 53, 10])]
  rw [show parseTemperature
      (List.drop (7 + 1) [88, 59, 49, 46, 48, 10, 89, 59, 45, 50, 46, 53, 10]) =
      some (F32.finite (mkRat (-5) 2), []) from by decide]
  dsimp only
  rw [show List.take 7 [88, 59, 49, 46, 48, 10, 89, 59, 45, 50, 46, 53, 10] = e2eKey from by
    decide]
  rw [emplace_into_new hash tableN Stat.DEFAULT_INSTANCE e2eKey (by decide)]
  dsimp only
  rw [modifyValue_of_slot _ _ (Entry.mk (some e2eKey) Stat.DEFAULT_INSTANCE)
    (fun s => s.add (F32.finite (mkRat (-5) 2))) (by
      exact List.getElem?_set_self (by
        rw [List.length_replicate]
        exact Nat.mod_lt _ (by decide)))]
  dsimp only
  rw [List.set_set]
  rw [show Stat.add Stat.DEFAULT_INSTANCE (F32.finite (mkRat (-5) 2)) = e2eStat from by decide]
  exact aggChunkAux_nil hash 12 (e2eTable hash)

theorem aggChunk2_eval (hash : Bytes → Nat) :
    aggregateChunk hash [88, 59, 51, 46, 48, 10] =
      some (Table.new tableN Stat.DEFAULT_INSTANCE) := rfl

theorem chunkMergeWith_new (hash : Bytes → Nat) (p : StatTable) :
    chunkMergeWith hash p (Table.new tableN Stat.DEFAULT_INSTANCE) = some p := by
  rw [chunkMergeWith]
  rw [show (Table.new tableN Stat.DEFAULT_INSTANCE : StatTable).items = [] from by
    rw [Table.items, Table.new]
    exact itemsList_replicate tableN Stat.DEFAULT_INSTANCE]
  rfl

theorem mergedTable_e2e (hash : Bytes → Nat) :
    mergedTable hash e2eInput 2 = some (e2eTable hash) := by
  rw [mergedTable]
  rw [show chunkify e2eInput 2 =
      some [[88, 59, 49, 46, 48, 10, 89, 59, 45, 50, 46, 53, 10], [88, 59, 51, 46, 48, 10]]
    from by decide]
  simp only [Option.bind_eq_bind, Option.some_bind]
  rw [aggAll]
  rw [aggChunk1_eval hash]
  simp only [Option.bind_eq_bind, Option.some_bind]
  rw [aggAll]
  rw [aggChunk2_eval hash]
  simp only [Option.bind_eq_bind, Option.some_bind]
  rw [show aggAll hash [] = some [] from rfl]
  simp only [Option.bind_eq_bind, Option.some_bind]
  have hm := chunkMergeWith_new hash (e2eTable hash)
  simp [List.foldlM, hm]

theorem e2eTable_items (hash : Bytes → Nat) :
    (e2eTable hash).items = [(e2eKey, e2eStat)] := by
  rw [Table.items, e2eTable]
  exact itemsList_replicate_set tableN Stat.DEFAULT_INSTANCE _ e2eKey e2eStat
    (Nat.mod_lt _ (by decide))

theorem renderTable_e2e (hash : Bytes → Nat) :
    renderTable (e2eTable hash) = "\x7bX;1.0\nY=-2.5/-2.5/-2.5,\x7d" := by
  rw [renderTable, e2eTable_items hash]
  decide

theorem runPipeline_e2e (hash : Bytes → Nat) :
    runPipeline hash e2eInput 2 = some "\x7bX;1.0\nY=-2.5/-2.5/-2.5,\x7d" := by
  rw [runPipeline, mergedTable_e2e hash, Option.map_some', renderTable_e2e hash]

/-- C3: the claim expects the input `"X;1.0\nY;-2.5\nX;3.0\n"`, split into
two line-aligned chunks, to aggregate to records for keys `X` and `Y` and
render as `\x7bX=1.0/2.0/3.0,Y=-2.5 -2.5 -2.5,\x7d` (slashes between the
three numbers).  On the source this is
false (see the counterexample): the worker's scan for `';'` starts at byte
offset 3 of each record, so the 1-byte keys are never split at their own
delimiter.  Amended: with the chunkify split `["X;1.0\nY;-2.5\n",
"X;3.0\n"]`, the first chunk parses the single record with key `"X;1.0\nY"`
and temperature `-2.5` and the second chunk parses no record, so for every
hash function the merged table holds exactly that key with record
`{min = -2.5, sum = -2.5, count = 1, max = -2.5}` and renders as
`\x7bX;1.0\nY=-2.5 -2.5 -2.5,\x7d` (slashes between the numbers). -/
theorem c3_pipeline_render (hash : Bytes → Nat) :
    (mergedTable hash e2eInput 2).map (fun t => sortByKey t.items) =
      some [(e2eKey, e2eStat)] ∧
    runPipeline hash e2eInput 2 = some "\x7bX;1.0\nY=-2.5/-2.5/-2.5,\x7d" := by
  constructor
  · rw [mergedTable_e2e hash, Option.map_some', e2eTable_items hash]
    rfl
  · exact runPipeline_e2e hash

theorem c3_counterexample :
    runPipeline hashZero e2eInput 2 ≠ some "\x7bX=1.0/2.0/3.0,Y=-2.5/-2.5/-2.5,\x7d" := by
  rw [runPipeline_e2e hashZero]
  decide

end Bologna
